import Mathlib

/-!
Shallow embedding of the ext2-like virtual filesystem in `src/myfs.c`.

The on-disk state is modelled structurally: the two allocation bitmaps as
`List Bool`, the inode table as a list of 512 inode records, and the data
region as a list of blocks.  A data block is either a directory block
(15 fixed-size entry slots, `BLOCK_SIZE / sizeof(DirectoryEntry) =
4096 / 260 = 15`) or a file block (4096 bytes).  The C code stores both
in untyped 4096-byte blocks; reading a block with the "wrong" view is
modelled by `blkEntries` / `blkBytes`, which decode the all-zero block
faithfully (a zero-filled block is 15 tombstone slots, and a directory
block read as file data is only ever produced/consumed as zeros in the
states exercised here).

32-bit fields are `Nat` with explicit wrap-around (`u32add`, `u32sub`)
exactly where the C performs `uint32_t` arithmetic.  `time(NULL)` is
modelled by the constant `now` field of the state.  Out-of-bounds
accesses to the 12-slot `direct_blocks` array (the C writes
`direct_blocks[-1]` in one reachable case) are modelled by total
accessors `dbGetI` / `dbSetI` that leave the array unchanged and raise
the `oob` flag of the state.
-/

set_option maxRecDepth 100000

def UNUSED : Nat := 4294967295

def u32add (a b : Nat) : Nat := (a + b) % 4294967296

def u32sub (a b : Nat) : Nat := (a + 4294967296 - b % 4294967296) % 4294967296

structure Ino where
  mode : Nat
  size : Nat
  linkCount : Nat
  ctime : Nat
  mtime : Nat
  directBlocks : List Nat
deriving DecidableEq

def zeroInode : Ino :=
  { mode := 0, size := 0, linkCount := 0, ctime := 0, mtime := 0,
    directBlocks := List.replicate 12 0 }

structure DEnt where
  name : List Char
  ino : Nat
deriving DecidableEq

inductive Blk where
  | dir (es : List DEnt)
  | file (bs : List Nat)
deriving DecidableEq

def blkEntries : Blk → List DEnt
  | .dir es => es
  | .file _ => List.replicate 15 ⟨[], 0⟩

def blkBytes : Blk → List Nat
  | .file bs => bs
  | .dir _ => List.replicate 4096 0

structure FS where
  inodeBM : List Bool
  dataBM : List Bool
  inodes : List Ino
  blocks : List Blk
  cwd : Nat
  now : Nat
  oob : Bool
deriving DecidableEq

def getIno (s : FS) (i : Nat) : Ino := s.inodes.getD i zeroInode

def setIno (s : FS) (i : Nat) (v : Ino) : FS := { s with inodes := s.inodes.set i v }

def bmGetI (s : FS) (i : Nat) : Bool := s.inodeBM.getD i false

def bmGetD (s : FS) (b : Nat) : Bool := s.dataBM.getD b false

def getBlk (s : FS) (b : Nat) : Blk := s.blocks.getD b (Blk.file (List.replicate 4096 0))

def setBlk (s : FS) (b : Nat) (v : Blk) : FS := { s with blocks := s.blocks.set b v }

/-- `alloc_inode`: first-fit scan over the inode bitmap, sets the bit. -/
def alloc_inode (s : FS) : Option (Nat × FS) :=
  match (List.range 512).find? (fun i => !(bmGetI s i)) with
  | none => none
  | some i => some (i, { s with inodeBM := s.inodeBM.set i true })

/-- `free_inode`: clears the inode bitmap bit. -/
def free_inode (s : FS) (i : Nat) : FS := { s with inodeBM := s.inodeBM.set i false }

/-- `alloc_data_block`: first-fit scan over the data bitmap, sets the bit. -/
def alloc_data_block (s : FS) : Option (Nat × FS) :=
  match (List.range s.dataBM.length).find? (fun i => !(bmGetD s i)) with
  | none => none
  | some i => some (i, { s with dataBM := s.dataBM.set i true })

/-- `free_data_block`: clears the data bitmap bit. -/
def free_data_block (s : FS) (b : Nat) : FS := { s with dataBM := s.dataBM.set b false }

/-- The slots of a directory visited by the iteration rule shared by
`find_entry_in_dir`, `do_ls`, `do_rm_entry`, `do_rmdir` and
`find_name_for_inode`: walk the direct blocks in order until the first
`UNUSED_BLOCK`, visit the 15 slots of each block in order, and stop once
`size / sizeof(DirectoryEntry)` live slots (first name byte non-NUL)
have been seen.  Each visited live slot is returned together with its
block-loop index and its slot index. -/
def visSlots (s : FS) (di : Ino) : List (Nat × Nat × DEnt) :=
  let raw := ((di.directBlocks.takeWhile (fun b => b ≠ UNUSED)).enum).flatMap
      (fun bi => ((blkEntries (getBlk s bi.2)).enum).map (fun je => (bi.1, je.1, je.2)))
  (raw.filter (fun t => t.2.2.name ≠ [])).take (di.size / 260)

/-- `find_entry_in_dir`: first visited live slot whose name matches. -/
def find_entry_in_dir (s : FS) (d : Nat) (name : List Char) : Option Nat :=
  let di := getIno s d
  if di.mode ≠ 1 then none
  else ((visSlots s di).find? (fun t => t.2.2.name == name)).map (fun t => t.2.2.ino)

/-- `find_name_for_inode`: first visited live slot of the parent whose
inode number matches the child and whose name is neither `.` nor `..`. -/
def find_name_for_inode (s : FS) (par child : Nat) : Option (List Char) :=
  let pi := getIno s par
  if pi.mode ≠ 1 then none
  else ((visSlots s pi).find?
      (fun t => t.2.2.ino == child && t.2.2.name != ['.'] && t.2.2.name != ['.', '.'])).map
      (fun t => t.2.2.name)

/-- `do_rm_entry`: tombstone (zero-fill) the first visited live slot
whose name matches; silently a no-op if not found. -/
def do_rm_entry (s : FS) (par : Nat) (name : List Char) : FS :=
  let pi := getIno s par
  match (visSlots s pi).find? (fun t => t.2.2.name == name) with
  | none => s
  | some t =>
    let b := pi.directBlocks.getD t.1 0
    setBlk s b (Blk.dir ((blkEntries (getBlk s b)).set t.2.1 ⟨[], 0⟩))

/-- Loop body of `add_entry_to_dir` over the remaining direct-block
indices.  On an `UNUSED_BLOCK` slot a fresh zeroed block is allocated and
the entry placed at slot 0; otherwise the first free slot of the block is
used.  `size` grows by one entry only when the linear slot index is at or
above the current high-water mark `size / sizeof(DirectoryEntry)`. -/
def add_entry_loop (s : FS) (d : Nat) (di : Ino) (ent : DEnt) : List Nat → FS
  | [] => s
  | i :: is =>
    let cur := di.directBlocks.getD i 0
    if cur = UNUSED then
      match alloc_data_block s with
      | none => s
      | some bs1 =>
        let es := (List.replicate 15 (⟨[], 0⟩ : DEnt)).set 0 ent
        let s2 := setBlk bs1.2 bs1.1 (Blk.dir es)
        let di1 := { di with directBlocks := di.directBlocks.set i bs1.1 }
        let di2 := if (i * 15) * 260 ≥ di1.size then { di1 with size := u32add di1.size 260 } else di1
        setIno s2 d { di2 with mtime := s2.now }
    else
      let es := blkEntries (getBlk s cur)
      match (List.range 15).find? (fun j => (es.getD j ⟨[], 0⟩).name == []) with
      | none => add_entry_loop s d di ent is
      | some j =>
        let s1 := setBlk s cur (Blk.dir (es.set j ent))
        let di1 := if (i * 15 + j) * 260 ≥ di.size then { di with size := u32add di.size 260 } else di
        setIno s1 d { di1 with mtime := s1.now }

/-- `add_entry_to_dir`: name truncated to 255 bytes, then the slot scan
above over direct-block indices 0..11. -/
def add_entry_to_dir (s : FS) (d : Nat) (name : List Char) (ino : Nat) : FS :=
  add_entry_loop s d (getIno s d) ⟨name.take 255, ino⟩ (List.range 12)

/-- Tokenizing walk of `get_path_inode`: skip delimiter runs, take the
next token, look it up, and fail when an intermediate component (more
non-delimiter input remains after dropping one delimiter) is not a
directory.  The walk consumes at least one character of the remaining
path per step, so fuel equal to the path length (supplied by
`resolve_loop`) is never exhausted. -/
def resolve_go (s : FS) : Nat → Nat → List Char → Option Nat
  | 0, cur, cs =>
    match cs.dropWhile (fun c => c = '/') with
    | [] => some cur
    | _ :: _ => none
  | fuel' + 1, cur, cs =>
    match cs.dropWhile (fun c => c = '/') with
    | [] => some cur
    | c :: cs2 =>
      let tok := (c :: cs2).takeWhile (fun x => x != '/')
      let rest := ((c :: cs2).dropWhile (fun x => x != '/')).drop 1
      match find_entry_in_dir s cur tok with
      | none => none
      | some nxt =>
        if (getIno s nxt).mode ≠ 1 ∧ rest ≠ [] then none
        else resolve_go s fuel' nxt rest

def resolve_loop (s : FS) (cur : Nat) (cs : List Char) : Option Nat :=
  resolve_go s cs.length cur cs

/-- `get_path_inode`: `.` resolves to the CWD, `/` to the root, an
absolute path starts at the root and a relative one at the CWD. -/
def get_path_inode (s : FS) (p : List Char) : Option Nat :=
  if p = [] then none
  else if p = ['.'] then some s.cwd
  else if p = ['/'] then some 0
  else resolve_loop s (if p.headD '.' = '/' then 0 else s.cwd) p

/-- POSIX `basename` on a character list. -/
def basename_of (p : List Char) : List Char :=
  if p = [] then ['.']
  else
    let q := (p.reverse.dropWhile (fun c => c = '/')).reverse
    if q = [] then ['/'] else (q.reverse.takeWhile (fun c => c ≠ '/')).reverse

/-- POSIX `dirname` on a character list. -/
def dirname_of (p : List Char) : List Char :=
  if p = [] then ['.']
  else
    let q := (p.reverse.dropWhile (fun c => c = '/')).reverse
    if q = [] then ['/']
    else
      let r := (q.reverse.dropWhile (fun c => c ≠ '/')).reverse
      if r = [] then ['.']
      else
        let r2 := (r.reverse.dropWhile (fun c => c = '/')).reverse
        if r2 = [] then ['/'] else r2

/-- `do_mkdir`.  Note that after a failed `add_entry_to_dir` the code
still increments the parent link count and reports success. -/
def do_mkdir (s : FS) (path : List Char) : FS :=
  let pp := dirname_of path
  let cn := basename_of path
  match get_path_inode s pp with
  | none => s
  | some par =>
    if (find_entry_in_dir s par cn).isSome then s else
    match alloc_inode s with
    | none => s
    | some ns1 =>
      match alloc_data_block ns1.2 with
      | none => free_inode ns1.2 ns1.1
      | some bs2 =>
        let ni : Ino := { mode := 1, size := 520, linkCount := 2, ctime := bs2.2.now,
                          mtime := bs2.2.now,
                          directBlocks := (List.replicate 12 UNUSED).set 0 bs2.1 }
        let s3 := setIno bs2.2 ns1.1 ni
        let es := ((List.replicate 15 (⟨[], 0⟩ : DEnt)).set 0 ⟨['.'], ns1.1⟩).set 1
            ⟨['.', '.'], par⟩
        let s4 := setBlk s3 bs2.1 (Blk.dir es)
        let s5 := add_entry_to_dir s4 par cn ns1.1
        let pi := getIno s5 par
        setIno s5 par { pi with linkCount := u32add pi.linkCount 1 }

/-- Split a host byte stream into 4096-byte blocks, zero-padding the
last one (the copy loop of `do_cp_to_vdisk`). -/
def chunk_loop : Nat → List Nat → List (List Nat)
  | 0, _ => []
  | k + 1, l =>
    if l = [] then []
    else (l.take 4096 ++ List.replicate (4096 - l.length) 0) :: chunk_loop k (l.drop 4096)

def chunkify (l : List Nat) : List (List Nat) := chunk_loop 12 l

/-- Block-allocation loop of `do_cp_to_vdisk`; returns the allocated
block numbers in order and whether every allocation succeeded. -/
def cp_to_loop (s : FS) : List (List Nat) → List Nat → FS × List Nat × Bool
  | [], acc => (s, acc, true)
  | c :: cs, acc =>
    match alloc_data_block s with
    | none => (s, acc, false)
    | some bs1 => cp_to_loop (setBlk bs1.2 bs1.1 (Blk.file c)) cs (acc ++ [bs1.1])

/-- `do_cp_to_vdisk` (import).  On an allocation failure partway the
blocks allocated so far and the new inode are freed (their contents stay
as written, as on the real disk). -/
def do_cp_to_vdisk (s : FS) (path : List Char) (data : List Nat) : FS :=
  if data.length > 49152 then s else
  let pp := dirname_of path
  let cn := basename_of path
  match get_path_inode s pp with
  | none => s
  | some par =>
    if (find_entry_in_dir s par cn).isSome then s else
    match alloc_inode s with
    | none => s
    | some ns1 =>
      match cp_to_loop ns1.2 (chunkify data) [] with
      | (s2, allocated, ok) =>
        if ok then
          let ni : Ino := { mode := 0, size := data.length, linkCount := 1, ctime := s2.now,
                            mtime := s2.now,
                            directBlocks := (List.range 12).map (fun i => allocated.getD i UNUSED) }
          add_entry_to_dir (setIno s2 ns1.1 ni) par cn ns1.1
        else
          free_inode (allocated.foldl free_data_block s2) ns1.1

/-- Export loop of `do_cp_from_vdisk`: emit `min(remaining, 4096)` bytes
per block until `size` bytes are out or an `UNUSED_BLOCK` is met. -/
def cp_out_loop (s : FS) : List Nat → Nat → List Nat
  | [], _ => []
  | b :: bs, left =>
    if left = 0 then []
    else if b = UNUSED then []
    else (blkBytes (getBlk s b)).take (min left 4096) ++ cp_out_loop s bs (left - min left 4096)

/-- `do_cp_from_vdisk` (export); returns the emitted byte stream. -/
def do_cp_from_vdisk (s : FS) (path : List Char) : Option (List Nat) :=
  match get_path_inode s path with
  | none => none
  | some ino =>
    let fi := getIno s ino
    if fi.mode ≠ 0 then none
    else some (cp_out_loop s fi.directBlocks fi.size)

/-- `do_rm`: tombstone the entry, shrink the parent size by one entry,
decrement the child link count, and reclaim blocks and inode at zero. -/
def do_rm (s : FS) (path : List Char) : FS :=
  let pp := dirname_of path
  let cn := basename_of path
  match get_path_inode s pp with
  | none => s
  | some par =>
    match find_entry_in_dir s par cn with
    | none => s
    | some child =>
      let ci := getIno s child
      if ci.mode = 1 then s else
      let s1 := do_rm_entry s par cn
      let pi := getIno s1 par
      let s2 := setIno s1 par { pi with size := u32sub pi.size 260 }
      let nl := u32sub ci.linkCount 1
      let s3 := setIno s2 child { ci with linkCount := nl }
      if nl = 0 then
        free_inode ((ci.directBlocks.filter (fun b => b ≠ UNUSED)).foldl free_data_block s3) child
      else s3

/-- `do_rmdir`: refuse the root, non-directories and directories with
more than two visited live entries; then remove the parent entry, shrink
and unlink the parent, and free `direct_blocks[0]` and the inode. -/
def do_rmdir (s : FS) (path : List Char) : FS :=
  if path = ['/'] then s else
  match get_path_inode s path with
  | none => s
  | some d =>
    let di := getIno s d
    if di.mode ≠ 1 then s else
    if (visSlots s di).length > 2 then s else
    let pp := dirname_of path
    let cn := basename_of path
    match get_path_inode s pp with
    | none => s
    | some par =>
      let s1 := do_rm_entry s par cn
      let pi := getIno s1 par
      let s2 := setIno s1 par { pi with size := u32sub pi.size 260,
                                        linkCount := u32sub pi.linkCount 1 }
      let b0 := di.directBlocks.getD 0 0
      let s3 := if b0 ≠ UNUSED then free_data_block s2 b0 else s2
      free_inode s3 d

/-- `do_ln`: hard link; refuses directory targets. -/
def do_ln (s : FS) (target linkp : List Char) : FS :=
  match get_path_inode s target with
  | none => s
  | some ti =>
    let tin := getIno s ti
    if tin.mode = 1 then s else
    let pp := dirname_of linkp
    let cn := basename_of linkp
    match get_path_inode s pp with
    | none => s
    | some par =>
      if (find_entry_in_dir s par cn).isSome then s else
      let s1 := add_entry_to_dir s par cn ti
      setIno s1 ti { tin with linkCount := u32add tin.linkCount 1 }

/-- Read of `direct_blocks[i]` at a possibly negative index: value plus
an out-of-bounds flag. -/
def dbGetI (db : List Nat) (i : Int) : Nat × Bool :=
  if 0 ≤ i ∧ i < 12 then (db.getD i.toNat 0, false) else (0, true)

/-- Write of `direct_blocks[i]` at a possibly negative index: no-op plus
an out-of-bounds flag outside `[0, 12)`. -/
def dbSetI (db : List Nat) (i : Int) (v : Nat) : List Nat × Bool :=
  if 0 ≤ i ∧ i < 12 then (db.set i.toNat v, false) else (db, true)

/-- Whole-block phase of `do_append`: while bytes remain and the index
is below 12, allocate a zeroed block and store its number at the current
index.  Returns the state, the direct-block array, the bytes left
unwritten and the accumulated out-of-bounds flag.  The index grows by
one per iteration and the loop breaks once it reaches 12, so the 13
units of fuel supplied by `do_append` (the index starts at −1 or above)
are never exhausted. -/
def append_loop : Nat → FS → List Nat → Int → Nat → Bool → FS × List Nat × Nat × Bool
  | 0, s, db, _, btadd, ob => (s, db, btadd, ob)
  | fuel + 1, s, db, idx, btadd, ob =>
    if btadd = 0 then (s, db, 0, ob)
    else if idx ≥ 12 then (s, db, btadd, ob)
    else match alloc_data_block s with
      | none => (s, db, btadd, ob)
      | some bs1 =>
        let s2 := setBlk bs1.2 bs1.1 (Blk.file (List.replicate 4096 0))
        let p := dbSetI db idx bs1.1
        let btw := min btadd 4096
        append_loop fuel s2 p.1 (idx + 1) (btadd - btw) (ob || p.2)

/-- Partial-tail phase of `do_append`: when the current last block is
partially filled, zero the appended region inside it and advance the
index; returns the state, the bytes still to add and the next block
index. -/
def append_partial (s : FS) (fi : Ino) (n : Nat) (lbi : Int) : FS × Nat × Int :=
  if fi.size > 0 ∧ fi.size % 4096 ≠ 0 then
    let g := dbGetI fi.directBlocks lbi
    let off := fi.size % 4096
    let btw := min n (4096 - off)
    let bs := blkBytes (getBlk s g.1)
    let s1 := setBlk s g.1 (Blk.file (bs.take off ++ List.replicate btw 0 ++ bs.drop (off + btw)))
    ({ s1 with oob := s1.oob || g.2 }, n - btw, lbi + 1)
  else (s, n, lbi)

/-- Body of `do_append` after resolution and the mode check. -/
def append_core (s : FS) (ino : Nat) (fi : Ino) (n : Nat) : FS × Nat :=
  if fi.size + n > 49152 then (s, 0) else
  let lbi : Int := if fi.size > 0 then ((fi.size - 1) / 4096 : Nat) else -1
  let st := append_partial s fi n lbi
  match append_loop 13 st.1 fi.directBlocks st.2.2 st.2.1 false with
  | (s2, db2, btleft, ob2) =>
    let s3 := { s2 with oob := s2.oob || ob2 }
    let s4 := setIno s3 ino { fi with directBlocks := db2, size := fi.size + n - btleft,
                                      mtime := s3.now }
    (s4, n - btleft)

/-- `do_append`: zero the tail of a partially filled last block, then
allocate further zeroed blocks; the size becomes the successfully
extended size and the number of bytes actually added is returned. -/
def do_append (s : FS) (path : List Char) (n : Nat) : FS × Nat :=
  if n = 0 then (s, 0) else
  match get_path_inode s path with
  | none => (s, 0)
  | some ino =>
    let fi := getIno s ino
    if fi.mode ≠ 0 then (s, 0) else append_core s ino fi n

/-- Block-freeing loop of `do_truncate` over the direct-block indices
past the last block to keep. -/
def trunc_loop : FS → List Nat → List Nat → FS × List Nat
  | s, db, [] => (s, db)
  | s, db, i :: is =>
    let b := db.getD i 0
    if b ≠ UNUSED then trunc_loop (free_data_block s b) (db.set i UNUSED) is
    else trunc_loop s db is

/-- First direct-block index past `last_block_to_keep` in `do_truncate`:
`last_block_to_keep` is −1 when the new size is 0 and
`(new_size − 1) / BLOCK_SIZE` otherwise. -/
def trunc_k0 (nsize : Nat) : Nat := if nsize > 0 then (nsize - 1) / 4096 + 1 else 0

/-- The block numbers freed by `do_truncate` for a given direct-block
array: the non-`UNUSED` entries at indices past `last_block_to_keep`. -/
def trunc_freed (db : List Nat) (k0 : Nat) : List Nat :=
  ((List.range' k0 (12 - k0)).map (fun i => db.getD i 0)).filter (fun x => x ≠ UNUSED)

/-- `do_truncate`: new size `max(0, old − n)`; free every direct block
with index above `last_block_to_keep` and mark those slots unused. -/
def do_truncate (s : FS) (path : List Char) (n : Nat) : FS :=
  if n = 0 then s else
  match get_path_inode s path with
  | none => s
  | some ino =>
    let fi := getIno s ino
    if fi.mode ≠ 0 then s else
    let k0 := trunc_k0 (fi.size - n)
    match trunc_loop s fi.directBlocks (List.range' k0 (12 - k0)) with
    | (s1, db1) =>
      setIno s1 ino { fi with size := fi.size - n, mtime := s1.now, directBlocks := db1 }

/-- `do_cd`: resolve, require a directory, set the CWD. -/
def do_cd (s : FS) (path : List Char) : FS :=
  if path = [] then s else
  match get_path_inode s path with
  | none => s
  | some t =>
    if (getIno s t).mode ≠ 1 then s else { s with cwd := t }

/-- Upward walk of `do_pwd`: look up `..`, find the current inode's name
in the parent, push it, and continue until the root; diagnostics (depth
over 64, missing parent or name) yield `none`. -/
def pwd_walk (s : FS) : Nat → Nat → List (List Char) → Option (List (List Char))
  | 0, _, _ => none
  | fuel+1, cur, acc =>
    if cur = 0 then some acc
    else
      let parentO := find_entry_in_dir s cur ['.', '.']
      if acc.length ≥ 64 then none
      else match parentO with
        | none => none
        | some par =>
          match find_name_for_inode s par cur with
          | none => none
          | some nm => if par = cur then some (nm :: acc) else pwd_walk s fuel par (nm :: acc)

/-- The printing loop of `do_pwd`: components joined by `/` (no
trailing slash). -/
def path_join : List (List Char) → List Char
  | [] => []
  | [x] => x
  | x :: xs => x ++ '/' :: path_join xs

/-- `do_pwd`: `/` at the root, otherwise `/` followed by the collected
components joined by `/`. -/
def do_pwd (s : FS) : Option (List Char) :=
  if s.cwd = 0 then some ['/']
  else (pwd_walk s 65 s.cwd []).map (fun comps => '/' :: path_join comps)

/-- Number of data blocks chosen by `do_mkfs` for a given image size
(32-bit wrap of `total_blocks − 13`, clamped to `MAX_DATA_BLOCKS`). -/
def mkfs_ndb (size : Nat) : Nat :=
  let raw := (((size / 4096 : Nat) : Int) - 13).emod 4294967296 |>.toNat
  if raw > 8192 then 8192 else raw

/-- The structured state produced by `do_mkfs`: root inode 0 (directory,
two entries, link count 2) owning data block 0 with `.` and `..`. -/
def mkfs_state (size t : Nat) : FS :=
  let nd := mkfs_ndb size
  let rootIno : Ino := { mode := 1, size := 520, linkCount := 2, ctime := t, mtime := t,
                         directBlocks := (List.replicate 12 UNUSED).set 0 0 }
  let rootEs := ((List.replicate 15 (⟨[], 0⟩ : DEnt)).set 0 ⟨['.'], 0⟩).set 1 ⟨['.', '.'], 0⟩
  { inodeBM := (List.replicate 512 false).set 0 true
    dataBM := (List.replicate nd false).set 0 true
    inodes := (List.replicate 512 zeroInode).set 0 rootIno
    blocks := (List.replicate nd (Blk.file (List.replicate 4096 0))).set 0 (Blk.dir rootEs)
    cwd := 0
    now := t
    oob := false }

/-- The command surface of the interactive loop; read-only commands
(`ls`, `pwd`, `df`, `cp-from`) do not change the state. -/
inductive Cmd where
  | mkdirC (p : List Char)
  | rmdirC (p : List Char)
  | rmC (p : List Char)
  | lnC (t l : List Char)
  | cpToC (p : List Char) (data : List Nat)
  | cpFromC (p : List Char)
  | appendC (p : List Char) (n : Nat)
  | truncateC (p : List Char) (n : Nat)
  | cdC (p : List Char)
  | lsC (p : List Char)
  | pwdC
  | dfC
deriving DecidableEq

def step (s : FS) : Cmd → FS
  | .mkdirC p => do_mkdir s p
  | .rmdirC p => do_rmdir s p
  | .rmC p => do_rm s p
  | .lnC t l => do_ln s t l
  | .cpToC p d => do_cp_to_vdisk s p d
  | .cpFromC _ => s
  | .appendC p n => (do_append s p n).1
  | .truncateC p n => do_truncate s p n
  | .cdC p => do_cd s p
  | .lsC _ => s
  | .pwdC => s
  | .dfC => s

def runCmds (s : FS) (cs : List Cmd) : FS := cs.foldl step s

/-- Count of live entry slots (first name byte non-NUL) over all blocks
owned by a directory inode. -/
def liveSlotCount (s : FS) (d : Nat) : Nat :=
  ((getIno s d).directBlocks.filter (fun b => b ≠ UNUSED)).foldl
    (fun a b => a + (blkEntries (getBlk s b)).countP (fun e => e.name ≠ [])) 0

/-- A reachable state exhibiting the directory-size defect: two empty
files are imported, the first is removed, and a third import reuses the
tombstoned slot without growing the parent size. -/
def fsBug : FS := runCmds (mkfs_state 65536 0)
  [.cpToC ['/', 'f', '1'] [], .cpToC ['/', 'f', '2'] [], .rmC ['/', 'f', '1'],
   .cpToC ['/', 'f', '3'] []]


def fsC4 : FS := do_cp_to_vdisk fsBug ['/', 'f', '4'] [7]

def lnNames : List Char := ['a', 'b', 'c', 'd', 'e', 'g', 'h', 'i', 'j', 'k', 'm', 'n']
def fsC2pre : FS := runCmds (mkfs_state 65536 0)
  ([.cpToC ['/', 'f'] [1]] ++ lnNames.map (fun c => Cmd.lnC ['/', 'f'] ['/', c]))
def fsC2post : FS := do_mkdir fsC2pre ['/', 'z']

def c3Names : List Char := ['a', 'b', 'c', 'e', 'f', 'g', 'h', 'i', 'j', 'k', 'l', 'm', 'n', 'o']
def fsC3 : FS := runCmds (mkfs_state 65536 0)
  ([.mkdirC ['/', 'd']] ++ c3Names.map (fun c => Cmd.cpToC ['/', 'd', '/', c] [])
    ++ c3Names.map (fun c => Cmd.rmC ['/', 'd', '/', c]) ++ [.rmdirC ['/', 'd']])

def fsC5a : FS := do_cp_to_vdisk (mkfs_state 65536 0) ['/', 'f'] []
def fsC5r : FS × Nat := do_append fsC5a ['/', 'f'] 5

/-- State just before the CWD-freeing `rmdir`: `/a` exists and is the
current working directory. -/
def fsC10pre : FS := runCmds (mkfs_state 65536 0) [.mkdirC ['/', 'a'], .cdC ['/', 'a']]

def fsC10 : FS := do_rmdir fsC10pre ['/', 'a']

/-- Byte `o` of the little-endian encoding of `v` in `w` bytes. -/
def le_byte (w v o : Nat) : Nat := if o < w then v / 256 ^ o % 256 else 0

/-- The superblock fields written by `do_mkfs`, in struct order:
total_size (32-bit), num_inodes, num_data_blocks, inode_bitmap_block,
data_bitmap_block, inode_table_start_block, data_blocks_start_block. -/
def sb_field (size k : Nat) : Nat :=
  [size % 4294967296, 512, mkfs_ndb size, 1, 2, 3, 13].getD k 0

/-- The 80 bytes of the root inode record written by `do_mkfs` (C struct
layout: mode at 0, padding, size at 4, link_count at 8, padding,
creation_time at 16, modification_time at 24, direct_blocks at 32;
padding bytes are taken as zero). -/
def root_inode_byte (t o : Nat) : Nat :=
  if o < 2 then le_byte 2 1 o
  else if o < 4 then 0
  else if o < 8 then le_byte 4 520 (o - 4)
  else if o < 12 then le_byte 4 2 (o - 8)
  else if o < 16 then 0
  else if o < 24 then le_byte 8 (t % 18446744073709551616) (o - 16)
  else if o < 32 then le_byte 8 (t % 18446744073709551616) (o - 24)
  else if o < 36 then 0
  else if o < 80 then 255
  else 0

/-- The root directory block written by `do_mkfs`: entry `.` → inode 0
at offset 0 and entry `..` → inode 0 at offset 260, all other bytes
zero. -/
def root_dir_byte (o : Nat) : Nat :=
  if o = 0 then 46
  else if o < 256 then 0
  else if o < 260 then 0
  else if o = 260 ∨ o = 261 then 46
  else 0

/-- Byte `off` of the disk image produced by `do_mkfs size` when
`time(NULL)` returns `t`: superblock in block 0, inode bitmap (bit 0
set) in block 1, data bitmap (bit 0 set) in block 2, root inode at the
start of block 3, root directory block at block 13, everything else
zero from `ftruncate`. -/
def mkfs_image (size t off : Nat) : Nat :=
  if off < 4096 then (if off < 28 then le_byte 4 (sb_field size (off / 4)) (off % 4) else 0)
  else if off < 8192 then (if off = 4096 then 1 else 0)
  else if off < 12288 then (if off = 8192 then 1 else 0)
  else if off < 16384 then root_inode_byte t (off - 12288)
  else if 53248 ≤ off ∧ off < 57344 then root_dir_byte (off - 53248)
  else 0

/-- The inode record written back by `do_truncate`. -/
def trunc_new_inode (fi : Ino) (t : Nat) (n : Nat) (db1 : List Nat) : Ino :=
  { fi with size := fi.size - n, mtime := t, directBlocks := db1 }

/-- A fresh image holding one 3-byte file `/f` (inode 1, one data
block); used to witness the truncate contract. -/
def fsC6 : FS := do_cp_to_vdisk (mkfs_state 65536 0) ['/', 'f'] [1, 2, 3]

/-- A consistency predicate on filesystem states, sufficient for `pwd`
to invert `cd`: the root is an allocated directory, and every other
allocated directory inode `d` has a `..` entry resolving to an allocated
directory parent `p` distinct from `d`, in which `d` appears under a
slash-free nonempty name that looks up back to `d`. -/
def ConsistentB (s : FS) : Bool :=
  bmGetI s 0 && (getIno s 0).mode == 1 &&
  (List.range 512).all (fun d =>
    !(bmGetI s d && (getIno s d).mode == 1 && !(d == 0)) ||
    (match find_entry_in_dir s d ['.', '.'] with
     | none => false
     | some par =>
       decide (par < 512) && bmGetI s par && ((getIno s par).mode == 1) && !(par == d) &&
       (match find_name_for_inode s par d with
        | none => false
        | some nm =>
          (find_entry_in_dir s par nm == some d) && !(nm == []) && !(nm.contains '/'))))

def Cmd.isRmdir : Cmd → Bool
  | .rmdirC _ => true
  | _ => false

/-- CWD validity invariant: the inode bitmap has its native 512 entries,
the CWD bit is set, the CWD inode is a directory, and every inode whose
mode says directory is allocated. -/
def InvP (s : FS) : Prop :=
  s.inodeBM.length = 512 ∧
  bmGetI s s.cwd = true ∧
  (getIno s s.cwd).mode = 1 ∧
  ∀ i, (getIno s i).mode = 1 → bmGetI s i = true

/-- C1: the directory size law fails on the code.  After the command
sequence of `fsBug` (import `/f1` and `/f2`, remove `/f1`, import `/f3`,
all from a fresh 16-block image) the root directory has 4 live entry
slots while `size / sizeof(DirectoryEntry)` is 3: the insertion of `f3`
reused the tombstoned slot below the high-water mark without growing
`size`, even though `do_rm` had decremented `size` by one entry. -/
theorem dir_size_law_violated :
    liveSlotCount fsBug 0 = 4 ∧ (getIno fsBug 0).size / 260 = 3 ∧
    (getIno fsBug 0).size / 260 ≠ liveSlotCount fsBug 0 := by decide

/-- C2: `do_mkdir` is not atomic when the insertion of the new entry
into the parent fails.  In `fsC2pre` the root block is full of live
entries and exactly one data block is free; `do_mkdir` allocates the new
inode and block, then `add_entry_to_dir` fails with out-of-data-blocks,
yet the code keeps the allocations, writes the new inode, increments the
parent link count and reports success: both bitmaps, the inode table and
the parent inode differ from the pre-call state while no live entry for
`z` exists. -/
theorem mkdir_rollback_violated :
    bmGetI fsC2pre 2 = false ∧ bmGetD fsC2pre 2 = false ∧
    (getIno fsC2pre 0).linkCount = 2 ∧ (getIno fsC2pre 2).mode = 0 ∧
    bmGetI fsC2post 2 = true ∧ bmGetD fsC2post 2 = true ∧
    (getIno fsC2post 0).linkCount = 3 ∧ (getIno fsC2post 2).mode = 1 ∧
    find_entry_in_dir fsC2post 0 ['z'] = none := by decide

/-- C3: bitmap consistency fails on the code.  `fsC3` builds `/d` with a
second directory block (16 entries), empties it again and removes it;
`do_rmdir` frees only `direct_blocks[0]`, so the second block keeps its
data-bitmap bit although no allocated inode lists it. -/
theorem bitmap_consistency_violated :
    bmGetD fsC3 2 = true ∧
    ((List.range 512).all
      (fun i => !(bmGetI fsC3 i) || !((getIno fsC3 i).directBlocks.contains 2))) = true := by decide

/-- C4: the import/export round-trip fails on the code.  In the
reachable state `fsBug` the destination parent exists, the leaf `f4` is
unused and an inode and a data block are free, yet after `cp-in` of the
one-byte stream `[7]` the new entry lies beyond the high-water mark of
the corrupted root directory, `cp-out` of the same path fails to resolve
it and emits nothing instead of `[7]`. -/
theorem roundtrip_violated :
    find_entry_in_dir fsBug 0 ['f', '4'] = none ∧
    bmGetI fsBug 3 = false ∧ bmGetD fsBug 1 = false ∧
    do_cp_from_vdisk fsC4 ['/', 'f', '4'] = none ∧
    do_cp_from_vdisk fsC4 ['/', 'f', '4'] ≠ some [7] := by decide

/-- C5: the append contract fails on the code for a block-aligned
current size.  `/f` is an existing empty file; `append /f 5` grows
`size` to 5 and reports 5 bytes added, but the new block number is
written to `direct_blocks[-1]` (out of bounds), `direct_blocks[0]` stays
`UNUSED_BLOCK`, and `cp-out` emits 0 bytes instead of 5 zero bytes. -/
theorem append_contract_violated :
    (getIno fsC5a 1).size = 0 ∧ (getIno fsC5a 1).mode = 0 ∧
    (getIno fsC5r.1 1).size = 5 ∧ fsC5r.2 = 5 ∧
    do_cp_from_vdisk fsC5r.1 ['/', 'f'] = some [] ∧
    do_cp_from_vdisk fsC5r.1 ['/', 'f'] ≠ some (List.replicate 5 0) ∧
    fsC5r.1.oob = true := by decide

/-- C9 counterexample: `append` on an existing file of size 0 with
`n = 5` performs a `direct_blocks` access outside `[0, 12)` (the write
of the fresh block number at index −1), so the out-of-bounds branch of
the total embedding of the array access is reached. -/
theorem append_index_oob_at_size_zero :
    get_path_inode fsC5a ['/', 'f'] = some 1 ∧ (getIno fsC5a 1).mode = 0 ∧
    (getIno fsC5a 1).size = 0 ∧ fsC5a.oob = false ∧
    (do_append fsC5a ['/', 'f'] 5).1.oob = true := by decide

/-- C10 counterexample: `mkdir /a; cd /a; rmdir /a` frees the inode that
is the current working directory; afterwards the CWD inode number refers
to an inode whose bitmap bit is clear. -/
theorem cwd_freed_by_rmdir :
    bmGetI fsC10pre fsC10pre.cwd = true ∧ (getIno fsC10pre fsC10pre.cwd).mode = 1 ∧
    fsC10.cwd = fsC10pre.cwd ∧ bmGetI fsC10 fsC10.cwd = false := by decide

/-- C8: `do_mkfs` is deterministic modulo the two timestamp fields.
Two images produced with the same size and different `time(NULL)`
results agree at every byte offset outside the sixteen bytes holding
the root inode's creation_time and modification_time (offsets
`3 * 4096 + 16` to `3 * 4096 + 32`). -/
theorem root_inode_byte_time_indep (t1 t2 o : Nat) (h : o < 16 ∨ 32 ≤ o) :
    root_inode_byte t1 o = root_inode_byte t2 o := by
  unfold root_inode_byte
  split_ifs <;> first | rfl | omega

theorem mkfs_deterministic_mod_timestamps (size t1 t2 off : Nat)
    (h : off < 12304 ∨ 12320 ≤ off) :
    mkfs_image size t1 off = mkfs_image size t2 off := by
  unfold mkfs_image
  split
  · rfl
  · split
    · rfl
    · split
      · rfl
      · split
        · exact root_inode_byte_time_indep t1 t2 _ (by omega)
        · rfl

/-- Witness for C8 at a concrete size and offset. -/
theorem mkfs_deterministic_mod_timestamps_witness :
    (0 < 12304 ∨ 12320 ≤ 0) ∧ mkfs_image 65536 1 0 = mkfs_image 65536 2 0 :=
  ⟨Or.inl (by decide), mkfs_deterministic_mod_timestamps 65536 1 2 0 (Or.inl (by decide))⟩

theorem alloc_data_block_oob (s : FS) (bs1 : Nat × FS)
    (h : alloc_data_block s = some bs1) : bs1.2.oob = s.oob := by
  unfold alloc_data_block at h
  cases hf : (List.range s.dataBM.length).find? (fun i => !(bmGetD s i)) with
  | none => rw [hf] at h; exact absurd h (by simp)
  | some i =>
    rw [hf] at h
    simp only [Option.some.injEq] at h
    rw [← h]

/-- `append_loop` leaves the state's out-of-bounds flag unchanged and
raises no flag of its own as long as its running index is nonnegative:
the loop breaks before any write at an index at or above 12. -/
theorem append_loop_no_oob (fuel : Nat) :
    ∀ (s : FS) (db : List Nat) (idx : Int) (btadd : Nat) (ob : Bool), 0 ≤ idx →
    (append_loop fuel s db idx btadd ob).1.oob = s.oob ∧
    (append_loop fuel s db idx btadd ob).2.2.2 = ob := by
  induction fuel with
  | zero => intro s db idx btadd ob _; exact ⟨rfl, rfl⟩
  | succ f ih =>
    intro s db idx btadd ob hidx
    by_cases h0 : btadd = 0
    · simp only [append_loop, if_pos h0]
      trivial
    · by_cases h12 : idx ≥ 12
      · simp only [append_loop, if_neg h0, if_pos h12]
        trivial
      · simp only [append_loop, if_neg h0, if_neg h12]
        cases halloc : alloc_data_block s with
        | none => trivial
        | some bs1 =>
          have hflag : (dbSetI db idx bs1.1).2 = false := by
            unfold dbSetI
            rw [if_pos ⟨hidx, by omega⟩]
          have hoob2 : (setBlk bs1.2 bs1.1 (Blk.file (List.replicate 4096 0))).oob = s.oob := by
            have h1 : (setBlk bs1.2 bs1.1 (Blk.file (List.replicate 4096 0))).oob = bs1.2.oob := rfl
            rw [h1]
            exact alloc_data_block_oob s bs1 halloc
          have key := ih (setBlk bs1.2 bs1.1 (Blk.file (List.replicate 4096 0)))
            (dbSetI db idx bs1.1).1 (idx + 1) (btadd - min btadd 4096) (ob || (dbSetI db idx bs1.1).2)
            (by omega)
          rw [hflag] at key
          simp only [Bool.or_false] at key
          simp only [hflag, Bool.or_false]
          exact ⟨key.1.trans hoob2, key.2⟩

theorem append_partial_oob (s : FS) (fi : Ino) (n : Nat) (lbi : Int)
    (hin : 0 ≤ lbi ∧ lbi < 12) :
    ( append_partial s fi n lbi).1.oob = s.oob ∧ 0 ≤ ( append_partial s fi n lbi).2.2 := by
  unfold append_partial
  by_cases hc : fi.size > 0 ∧ fi.size % 4096 ≠ 0
  · have hg : (dbGetI fi.directBlocks lbi).2 = false := by
      unfold dbGetI
      rw [if_pos hin]
    simp only [if_pos hc, hg, Bool.or_false]
    exact ⟨rfl, by omega⟩
  · simp only [if_neg hc]
    exact ⟨trivial, hin.1⟩

theorem append_core_oob (s : FS) (ino : Nat) (fi : Ino) (n : Nat)
    (hsz : 0 < fi.size) (hn : 0 < n) :
    (append_core s ino fi n).1.oob = s.oob := by
  unfold append_core
  by_cases hbig : fi.size + n > 49152
  · rw [if_pos hbig]
  · rw [if_neg hbig]
    have hlbi : (if fi.size > 0 then (((fi.size - 1) / 4096 : Nat) : Int) else -1) =
        (((fi.size - 1) / 4096 : Nat) : Int) := if_pos hsz
    simp only [hlbi]
    have hbnd : ((fi.size - 1) / 4096 : Nat) < 12 := by omega
    obtain ⟨hpo, hpi⟩ := append_partial_oob s fi n (((fi.size - 1) / 4096 : Nat) : Int)
      ⟨by positivity, by exact_mod_cast hbnd⟩
    obtain ⟨hlo, hlb⟩ := append_loop_no_oob 13
      ( append_partial s fi n (((fi.size - 1) / 4096 : Nat) : Int)).1 fi.directBlocks
      ( append_partial s fi n (((fi.size - 1) / 4096 : Nat) : Int)).2.2
      ( append_partial s fi n (((fi.size - 1) / 4096 : Nat) : Int)).2.1 false hpi
    simp only [hlo, hlb, Bool.or_false, hpo]
    rfl

/-- C9 (amended): for every `append` call on a path resolving to an
existing file inode with `n > 0`, provided the file's current size is
nonzero, every `direct_blocks` index used by the operation lies within
`[0, 12)`: the out-of-bounds branch of the total embedding of the array
access is never taken, so the operation's out-of-bounds flag is
unchanged.  (The original claim, which included size 0, is refuted by
`append_index_oob_at_size_zero`.) -/
theorem append_indices_in_bounds (s : FS) (p : List Char) (n ino : Nat)
    (hres : get_path_inode s p = some ino) (hmode : (getIno s ino).mode = 0)
    (hn : 0 < n) (hsz : 0 < (getIno s ino).size) :
    (do_append s p n).1.oob = s.oob := by
  unfold do_append
  rw [if_neg (show ¬ n = 0 by omega), hres]
  have hm : ¬ (getIno s ino).mode ≠ 0 := by rw [hmode]; trivial
  simp only [hm, if_false, ite_false]
  exact append_core_oob s ino (getIno s ino) n hsz hn

/-- Witness for the amended C9 at a concrete state: `/f` has size 1. -/
theorem append_indices_in_bounds_witness :
    get_path_inode fsC2pre ['/', 'f'] = some 1 ∧ (getIno fsC2pre 1).mode = 0 ∧
    (0 : Nat) < 3 ∧ 0 < (getIno fsC2pre 1).size ∧
    (do_append fsC2pre ['/', 'f'] 3).1.oob = fsC2pre.oob :=
  ⟨by decide, by decide, by decide, by decide,
   append_indices_in_bounds fsC2pre ['/', 'f'] 3 1 (by decide) (by decide) (by decide) (by decide)⟩

theorem getD_set_ne' {α : Type} (l : List α) (i j : Nat) (v d : α) (h : i ≠ j) :
    (l.set i v).getD j d = l.getD j d := by
  simp [List.getD_eq_getElem?_getD, List.getElem?_set_ne h]

theorem getD_set_self' {α : Type} (l : List α) (i : Nat) (v d : α) (h : i < l.length) :
    (l.set i v).getD i d = v := by
  simp [List.getD_eq_getElem?_getD, List.getElem?_set_self, h]

theorem bmGetD_free (s : FS) (b b' : Nat) :
    bmGetD (free_data_block s b) b' = if b' = b then false else bmGetD s b' := by
  have h1 : (free_data_block s b).dataBM = s.dataBM.set b false := rfl
  unfold bmGetD
  rw [h1]
  by_cases h : b' = b
  · subst h
    rw [if_pos rfl]
    by_cases hl : b' < s.dataBM.length
    · exact getD_set_self' _ _ _ _ hl
    · rw [List.set_eq_of_length_le (by omega)]
      exact List.getD_eq_default _ _ (by omega)
  · rw [if_neg h]
    exact getD_set_ne' _ _ _ _ _ (fun hh => h hh.symm)

/-- Effect of the block-freeing loop of `do_truncate`: the rest of the
state is untouched, the visited slots become `UNUSED_BLOCK`, the other
slots are unchanged, and exactly the non-`UNUSED` block numbers held in
the visited slots lose their data-bitmap bit. -/
theorem trunc_loop_spec (idxs : List Nat) :
    ∀ (s : FS) (db : List Nat), db.length = 12 → (∀ i ∈ idxs, i < 12) → idxs.Nodup →
    (trunc_loop s db idxs).1.inodeBM = s.inodeBM ∧
    (trunc_loop s db idxs).1.inodes = s.inodes ∧
    (trunc_loop s db idxs).1.blocks = s.blocks ∧
    (trunc_loop s db idxs).1.cwd = s.cwd ∧
    (trunc_loop s db idxs).1.now = s.now ∧
    (trunc_loop s db idxs).1.oob = s.oob ∧
    (trunc_loop s db idxs).2.length = 12 ∧
    (∀ j, j ∉ idxs → (trunc_loop s db idxs).2.getD j 0 = db.getD j 0) ∧
    (∀ j ∈ idxs, (trunc_loop s db idxs).2.getD j 0 = UNUSED) ∧
    (∀ b, bmGetD (trunc_loop s db idxs).1 b =
      if b ∈ (idxs.map (fun i => db.getD i 0)).filter (fun x => x ≠ UNUSED) then false
      else bmGetD s b) := by
  induction idxs with
  | nil =>
    intro s db hlen _ _
    refine ⟨rfl, rfl, rfl, rfl, rfl, rfl, hlen, fun j _ => rfl, by simp, fun b => ?_⟩
    simp only [List.map_nil, List.filter_nil, List.not_mem_nil, if_false]
    rfl
  | cons i is ih =>
    intro s db hlen hmem hnd
    have hi12 : i < 12 := hmem i (by simp)
    by_cases hb : db.getD i 0 ≠ UNUSED
    · have hstep : trunc_loop s db (i :: is) =
          trunc_loop (free_data_block s (db.getD i 0)) (db.set i UNUSED) is := by
        simp only [trunc_loop, if_pos hb]
      obtain ⟨e1, e2, e3, e4, e5, e6, e7, e8, e9, e10⟩ :=
        ih (free_data_block s (db.getD i 0)) (db.set i UNUSED)
          (by simp [hlen]) (fun j hj => hmem j (by simp [hj])) hnd.of_cons
      have hmapeq : is.map (fun j => (db.set i UNUSED).getD j 0) = is.map (fun j => db.getD j 0) :=
        List.map_eq_map_iff.mpr (fun j hj =>
          getD_set_ne' _ _ _ _ _ (fun he => (List.nodup_cons.mp hnd).1 (he ▸ hj)))
      have hfc : ((i :: is).map (fun j => db.getD j 0)).filter (fun x => x ≠ UNUSED) =
          db.getD i 0 :: (is.map (fun j => db.getD j 0)).filter (fun x => x ≠ UNUSED) := by
        rw [List.map_cons]
        exact List.filter_cons_of_pos (by simpa [List.getD_eq_getElem?_getD] using hb)
      rw [hstep]
      refine ⟨e1, e2, e3, e4, e5, e6, e7, ?_, ?_, ?_⟩
      · intro j hj
        have hji : j ≠ i := fun he => hj (by simp [he])
        have hjis : j ∉ is := fun he => hj (by simp [he])
        rw [e8 j hjis]
        exact getD_set_ne' _ _ _ _ _ (fun he => hji he.symm)
      · intro j hj
        rcases List.mem_cons.mp hj with he | hin
        · subst he
          rw [e8 j (List.nodup_cons.mp hnd).1]
          exact getD_set_self' _ _ _ _ (by omega)
        · exact e9 j hin
      · intro b
        rw [e10 b, hmapeq, hfc, bmGetD_free]
        by_cases hbin : b ∈ (is.map (fun j => db.getD j 0)).filter (fun x => x ≠ UNUSED)
        · rw [if_pos hbin, if_pos (List.mem_cons_of_mem _ hbin)]
        · rw [if_neg hbin]
          by_cases hbeq : b = db.getD i 0
          · rw [if_pos hbeq, if_pos (by rw [hbeq]; exact List.mem_cons_self _ _)]
          · rw [if_neg hbeq, if_neg (fun hc => by
              rcases List.mem_cons.mp hc with hc1 | hc2
              · exact hbeq hc1
              · exact hbin hc2)]
    · have hstep : trunc_loop s db (i :: is) = trunc_loop s db is := by
        simp only [trunc_loop, if_neg hb]
      obtain ⟨e1, e2, e3, e4, e5, e6, e7, e8, e9, e10⟩ :=
        ih s db hlen (fun j hj => hmem j (by simp [hj])) hnd.of_cons
      have hbu : db.getD i 0 = UNUSED := by
        by_contra hc
        exact hb hc
      have hfc : ((i :: is).map (fun j => db.getD j 0)).filter (fun x => x ≠ UNUSED) =
          (is.map (fun j => db.getD j 0)).filter (fun x => x ≠ UNUSED) := by
        rw [List.map_cons]
        exact List.filter_cons_of_neg (by simpa [List.getD_eq_getElem?_getD] using hbu)
      rw [hstep]
      refine ⟨e1, e2, e3, e4, e5, e6, e7, ?_, ?_, ?_⟩
      · intro j hj
        exact e8 j (fun he => hj (by simp [he]))
      · intro j hj
        rcases List.mem_cons.mp hj with he | hin
        · subst he
          rw [e8 j (List.nodup_cons.mp hnd).1, hbu]
        · exact e9 j hin
      · intro b
        rw [e10 b, hfc]

theorem getBlk_congr (s1 s : FS) (b : Nat) (h : s1.blocks = s.blocks) :
    getBlk s1 b = getBlk s b := by
  unfold getBlk
  rw [h]

/-- C6: the truncate contract.  For an existing file, `truncate(f, n)`
with `n > 0` sets the size to `max(0, size − n)`, sets exactly the
direct-block slots past `last_block_to_keep` to `UNUSED_BLOCK` while the
lower slots are unchanged, clears the data-bitmap bits of exactly the
freed block numbers, and leaves every block's contents unchanged. -/
theorem truncate_contract (s : FS) (p : List Char) (n ino : Nat)
    (hres : get_path_inode s p = some ino) (hmode : (getIno s ino).mode = 0)
    (hn : 0 < n) (hino : ino < s.inodes.length)
    (hdb : (getIno s ino).directBlocks.length = 12) :
    (getIno (do_truncate s p n) ino).size = (getIno s ino).size - n ∧
    (∀ j, j < trunc_k0 ((getIno s ino).size - n) →
      (getIno (do_truncate s p n) ino).directBlocks.getD j 0 =
        (getIno s ino).directBlocks.getD j 0) ∧
    (∀ j, trunc_k0 ((getIno s ino).size - n) ≤ j → j < 12 →
      (getIno (do_truncate s p n) ino).directBlocks.getD j 0 = UNUSED) ∧
    (∀ b, b ∈ trunc_freed (getIno s ino).directBlocks (trunc_k0 ((getIno s ino).size - n)) →
      bmGetD (do_truncate s p n) b = false) ∧
    (∀ b, b ∉ trunc_freed (getIno s ino).directBlocks (trunc_k0 ((getIno s ino).size - n)) →
      bmGetD (do_truncate s p n) b = bmGetD s b) ∧
    (∀ b, getBlk (do_truncate s p n) b = getBlk s b) := by
  have hunf : do_truncate s p n =
      (match trunc_loop s (getIno s ino).directBlocks
          (List.range' (trunc_k0 ((getIno s ino).size - n))
            (12 - trunc_k0 ((getIno s ino).size - n))) with
      | (s1, db1) => setIno s1 ino (trunc_new_inode (getIno s ino) s1.now n db1)) := by
    unfold do_truncate trunc_new_inode
    rw [if_neg (show ¬ n = 0 by omega), hres]
    have hm : ¬ (getIno s ino).mode ≠ 0 := by rw [hmode]; trivial
    simp only [hm, ite_false, if_false]
  obtain ⟨e1, e2, e3, e4, e5, e6, e7, e8, e9, e10⟩ :=
    trunc_loop_spec
      (List.range' (trunc_k0 ((getIno s ino).size - n)) (12 - trunc_k0 ((getIno s ino).size - n)))
      s (getIno s ino).directBlocks hdb
      (fun i hi => by
        have := List.mem_range'_1.mp hi
        omega)
      (List.nodup_range' _ _)
  rw [hunf]
  cases htl : trunc_loop s (getIno s ino).directBlocks
      (List.range' (trunc_k0 ((getIno s ino).size - n))
        (12 - trunc_k0 ((getIno s ino).size - n))) with
  | mk s1 db1 =>
    rw [htl] at e1 e2 e3 e4 e5 e6 e7 e8 e9 e10
    have hg : getIno (setIno s1 ino (trunc_new_inode (getIno s ino) s1.now n db1)) ino =
        trunc_new_inode (getIno s ino) s1.now n db1 := by
      unfold getIno setIno
      exact getD_set_self' _ _ _ _ (by rw [e2]; exact hino)
    refine ⟨?_, ?_, ?_, ?_, ?_, ?_⟩
    · rw [hg]
      rfl
    · intro j hj
      rw [hg]
      show db1.getD j 0 = (getIno s ino).directBlocks.getD j 0
      exact e8 j (fun hc => by
        have := List.mem_range'_1.mp hc
        omega)
    · intro j hj1 hj2
      rw [hg]
      show db1.getD j 0 = UNUSED
      exact e9 j (List.mem_range'_1.mpr ⟨hj1, by omega⟩)
    · intro b hbm
      have hb1 : bmGetD (setIno s1 ino (trunc_new_inode (getIno s ino) s1.now n db1)) b =
          bmGetD s1 b := rfl
      unfold trunc_freed at hbm
      rw [hb1, e10 b, if_pos hbm]
    · intro b hbm
      have hb1 : bmGetD (setIno s1 ino (trunc_new_inode (getIno s ino) s1.now n db1)) b =
          bmGetD s1 b := rfl
      unfold trunc_freed at hbm
      rw [hb1, e10 b, if_neg hbm]
    · intro b
      have hb1 : getBlk (setIno s1 ino (trunc_new_inode (getIno s ino) s1.now n db1)) b =
          getBlk s1 b := rfl
      rw [hb1]
      exact getBlk_congr s1 s b e3

/-- Witness for C6 at a concrete state: truncating the 3-byte `/f`
by 2 bytes. -/
theorem truncate_contract_witness :
    get_path_inode fsC6 ['/', 'f'] = some 1 ∧ (getIno fsC6 1).mode = 0 ∧
    1 < fsC6.inodes.length ∧ (getIno fsC6 1).directBlocks.length = 12 ∧
    (getIno (do_truncate fsC6 ['/', 'f'] 2) 1).size = (getIno fsC6 1).size - 2 :=
  ⟨by decide, by decide, by decide, by decide,
   (truncate_contract fsC6 ['/', 'f'] 2 1 (by decide) (by decide) (by decide) (by decide)
     (by decide)).1⟩

theorem consistent_root (s : FS) (h : ConsistentB s = true) :
    bmGetI s 0 = true ∧ (getIno s 0).mode = 1 := by
  unfold ConsistentB at h
  simp only [Bool.and_eq_true, beq_iff_eq] at h
  exact ⟨h.1.1, h.1.2⟩

theorem consistent_spec (s : FS) (h : ConsistentB s = true) (d : Nat) (hd : d < 512)
    (hbm : bmGetI s d = true) (hmode : (getIno s d).mode = 1) (hne : d ≠ 0) :
    ∃ par nm, find_entry_in_dir s d ['.', '.'] = some par ∧ par < 512 ∧
      bmGetI s par = true ∧ (getIno s par).mode = 1 ∧ par ≠ d ∧
      find_name_for_inode s par d = some nm ∧ find_entry_in_dir s par nm = some d ∧
      nm ≠ [] ∧ '/' ∉ nm := by
  unfold ConsistentB at h
  simp only [Bool.and_eq_true, List.all_eq_true, List.mem_range] at h
  have h2 := h.2 d hd
  simp only [hbm, hmode, hne, beq_self_eq_true, Bool.and_true, Bool.true_and, beq_iff_eq,
    Bool.not_eq_true', Bool.or_eq_true, decide_eq_true_eq] at h2
  rcases h2 with h2 | h2
  · rw [Bool.not_eq_false', beq_iff_eq] at h2
    exact absurd h2 hne
  · cases hfe : find_entry_in_dir s d ['.', '.'] with
    | none => rw [hfe] at h2; exact absurd h2 (by simp)
    | some par =>
      rw [hfe] at h2
      simp only [Bool.and_eq_true, decide_eq_true_eq, beq_iff_eq, Bool.not_eq_true',
        beq_eq_false_iff_ne, ne_eq] at h2
      cases hfn : find_name_for_inode s par d with
      | none => rw [hfn] at h2; simp at h2
      | some nm =>
        rw [hfn] at h2
        simp only [Bool.and_eq_true, beq_iff_eq, Bool.not_eq_true', beq_eq_false_iff_ne,
          ne_eq] at h2
        refine ⟨par, nm, rfl, h2.1.1.1.1, h2.1.1.1.2, h2.1.1.2, h2.1.2, hfn, h2.2.1.1,
          h2.2.1.2, ?_⟩
        intro hc
        have h3 : nm.contains '/' = true := List.elem_eq_true_of_mem hc
        rw [h2.2.2] at h3
        cases h3

theorem length_dw_le (p : Char → Bool) (l : List Char) : (l.dropWhile p).length ≤ l.length := by
  induction l with
  | nil => simp
  | cons a t ih =>
    by_cases hp : p a
    · rw [List.dropWhile_cons_of_pos hp]
      exact ih.trans (by simp)
    · rw [List.dropWhile_cons_of_neg hp]

theorem dw_head_false (p : Char → Bool) (l : List Char) (c : Char) (t : List Char)
    (h : l.dropWhile p = c :: t) : p c = false := by
  induction l with
  | nil => cases h
  | cons a l2 ih =>
    by_cases hp : p a
    · rw [List.dropWhile_cons_of_pos hp] at h
      exact ih h
    · rw [List.dropWhile_cons_of_neg hp] at h
      cases h
      exact Bool.not_eq_true _ ▸ (by simpa using hp)

theorem tw_app (nm X : List Char) (h : ∀ c ∈ nm, c ≠ '/') :
    (nm ++ X).takeWhile (fun x => x != '/') = nm ++ X.takeWhile (fun x => x != '/') := by
  induction nm with
  | nil => simp
  | cons a t ih =>
    have ha : ((fun x => x != '/') a) = true := by
      simp [h a (by simp)]
    simp only [List.cons_append, List.takeWhile_cons, ha, if_true]
    rw [ih (fun c hc => h c (by simp [hc]))]

theorem dw_app (nm X : List Char) (h : ∀ c ∈ nm, c ≠ '/') :
    (nm ++ X).dropWhile (fun x => x != '/') = X.dropWhile (fun x => x != '/') := by
  induction nm with
  | nil => simp
  | cons a t ih =>
    have ha : ((fun x => x != '/') a) = true := by
      simp [h a (by simp)]
    simp only [List.cons_append, List.dropWhile_cons, ha, if_true]
    rw [ih (fun c hc => h c (by simp [hc]))]

theorem dw_slash_keep (c : Char) (t X : List Char) (hc : c ≠ '/') :
    ((c :: t) ++ X).dropWhile (fun x => x = '/') = (c :: t) ++ X := by
  rw [List.cons_append, List.dropWhile_cons_of_neg (by simp [hc])]

theorem resolve_go_fuel (s : FS) : ∀ (N : Nat) (cs : List Char) (f1 f2 cur : Nat),
    cs.length ≤ N → cs.length ≤ f1 → cs.length ≤ f2 →
    resolve_go s f1 cur cs = resolve_go s f2 cur cs := by
  intro N
  induction N with
  | zero =>
    intro cs f1 f2 cur h0 _ _
    have hcs : cs = [] := List.length_eq_zero.mp (by omega)
    subst hcs
    cases f1 <;> cases f2 <;> simp only [resolve_go, List.dropWhile_nil]
  | succ N ih =>
    intro cs f1 f2 cur hN h1 h2
    cases hd : cs.dropWhile (fun c => c = '/') with
    | nil =>
      cases f1 <;> cases f2 <;> simp only [resolve_go, hd]
    | cons c cs2 =>
      have hcs : 1 ≤ cs.length := by
        cases cs with
        | nil => simp at hd
        | cons _ _ => simp
      obtain ⟨f1p, rfl⟩ : ∃ f1p, f1 = f1p + 1 := ⟨f1 - 1, by omega⟩
      obtain ⟨f2p, rfl⟩ : ∃ f2p, f2 = f2p + 1 := ⟨f2 - 1, by omega⟩
      simp only [resolve_go, hd]
      have hlen : (c :: cs2).length ≤ cs.length := by
        have hdw := length_dw_le (fun c => decide (c = '/')) cs
        rw [hd] at hdw
        exact hdw
      have hrest : (((c :: cs2).dropWhile (fun x => x != '/')).drop 1).length + 1 ≤ cs.length := by
        have h3 := length_dw_le (fun x => x != '/') (c :: cs2)
        simp only [List.length_drop]
        simp only [List.length_cons] at hlen h3
        omega
      split
      · rfl
      · rename_i nxt _
        by_cases hm : (getIno s nxt).mode ≠ 1 ∧
            (((c :: cs2).dropWhile (fun x => x != '/')).drop 1) ≠ []
        · rw [if_pos hm, if_pos hm]
        · rw [if_neg hm, if_neg hm]
          exact ih _ f1p f2p nxt (by omega) (by omega) (by omega)

theorem resolve_go_slash (s : FS) (f cur : Nat) (cs : List Char) :
    resolve_go s f cur ('/' :: cs) = resolve_go s f cur cs := by
  have hdw : ('/' :: cs).dropWhile (fun c => c = '/') = cs.dropWhile (fun c => c = '/') :=
    List.dropWhile_cons_of_pos (by simp)
  cases f <;> simp only [resolve_go, hdw]

theorem resolve_loop_slash (s : FS) (cur : Nat) (cs : List Char) :
    resolve_loop s cur ('/' :: cs) = resolve_loop s cur cs := by
  unfold resolve_loop
  rw [resolve_go_slash]
  exact resolve_go_fuel s ('/' :: cs).length cs ('/' :: cs).length cs.length cur
    (by simp) (by simp) (le_refl _)

theorem resolve_go_cwd (s : FS) (x : Nat) : ∀ (f : Nat) (cur : Nat) (cs : List Char),
    resolve_go { s with cwd := x } f cur cs = resolve_go s f cur cs := by
  intro f
  induction f with
  | zero =>
    intro cur cs
    cases hd : cs.dropWhile (fun c => c = '/') <;> simp only [resolve_go, hd]
  | succ f ih =>
    intro cur cs
    cases hd : cs.dropWhile (fun c => c = '/') with
    | nil => simp only [resolve_go, hd]
    | cons c cs2 =>
      simp only [resolve_go, hd]
      have hfe : find_entry_in_dir { s with cwd := x } cur
          ((c :: cs2).takeWhile (fun xx => xx != '/')) =
          find_entry_in_dir s cur ((c :: cs2).takeWhile (fun xx => xx != '/')) := rfl
      rw [hfe]
      split
      · rfl
      · rename_i nxt _
        have hgi : getIno { s with cwd := x } nxt = getIno s nxt := rfl
        rw [hgi]
        by_cases hm : (getIno s nxt).mode ≠ 1 ∧
            (((c :: cs2).dropWhile (fun xx => xx != '/')).drop 1) ≠ []
        · rw [if_pos hm, if_pos hm]
        · rw [if_neg hm, if_neg hm]
          exact ih nxt _

theorem resolve_loop_cwd (s : FS) (x : Nat) (cur : Nat) (cs : List Char) :
    resolve_loop { s with cwd := x } cur cs = resolve_loop s cur cs := by
  unfold resolve_loop
  exact resolve_go_cwd s x cs.length cur cs

theorem resolve_loop_nil (s : FS) (cur : Nat) : resolve_loop s cur [] = some cur := rfl

theorem resolve_go_nil (s : FS) (f cur : Nat) : resolve_go s f cur [] = some cur := by
  cases f <;> simp only [resolve_go, List.dropWhile_nil]

/-- Resolving `nm/rest` from `p` when `nm` looks up to the directory
`cur` equals resolving `rest` from `cur`. -/
theorem resolve_step (s : FS) (p cur : Nat) (nm : List Char) (acc : List (List Char))
    (hnm1 : nm ≠ []) (hnm2 : '/' ∉ nm)
    (hfind : find_entry_in_dir s p nm = some cur) (hmode : (getIno s cur).mode = 1) :
    resolve_loop s p (path_join (nm :: acc)) = resolve_loop s cur (path_join acc) := by
  have hall : ∀ ch ∈ nm, ch ≠ '/' := fun ch hch he => hnm2 (he ▸ hch)
  obtain ⟨c, nm', rfl⟩ : ∃ c nm', nm = c :: nm' := by
    cases nm with
    | nil => exact absurd rfl hnm1
    | cons c nm' => exact ⟨c, nm', rfl⟩
  have hc : c ≠ '/' := hall c (by simp)
  cases acc with
  | nil =>
    show resolve_loop s p (c :: nm') = resolve_loop s cur (path_join [])
    have h2 : resolve_loop s cur (path_join []) = some cur := rfl
    rw [h2]
    unfold resolve_loop
    have hlen : (c :: nm').length = nm'.length + 1 := by simp
    rw [hlen]
    have hdw : (c :: nm').dropWhile (fun ch => ch = '/') = c :: nm' :=
      List.dropWhile_cons_of_neg (by simp [hc])
    simp only [resolve_go, hdw]
    have htok : (c :: nm').takeWhile (fun xx => xx != '/') = c :: nm' := by
      have := tw_app (c :: nm') [] hall
      simpa using this
    have hrest : (c :: nm').dropWhile (fun xx => xx != '/') = [] := by
      have := dw_app (c :: nm') [] hall
      simpa using this
    simp only [htok, hfind, hrest, List.drop_nil]
    rw [if_neg (by simp)]
    exact resolve_go_nil s _ cur
  | cons a as =>
    show resolve_loop s p ((c :: nm') ++ '/' :: path_join (a :: as)) = _
    unfold resolve_loop
    have hlen : ((c :: nm') ++ '/' :: path_join (a :: as)).length =
        (nm'.length + 1 + (path_join (a :: as)).length) + 1 := by
      simp
      omega
    rw [hlen]
    have hdw2 : List.dropWhile (fun ch => ch = '/') (c :: (nm' ++ '/' :: path_join (a :: as))) =
        c :: (nm' ++ '/' :: path_join (a :: as)) :=
      List.dropWhile_cons_of_neg (by simp [hc])
    simp only [resolve_go, List.cons_append, hdw2]
    have htok2 : List.takeWhile (fun x => x != '/') (c :: (nm' ++ '/' :: path_join (a :: as))) =
        c :: nm' := by
      have h4 := tw_app (c :: nm') ('/' :: path_join (a :: as)) hall
      rw [List.cons_append] at h4
      simpa using h4
    have hrest2 : List.dropWhile (fun x => x != '/') (c :: (nm' ++ '/' :: path_join (a :: as))) =
        '/' :: path_join (a :: as) := by
      have h4 := dw_app (c :: nm') ('/' :: path_join (a :: as)) hall
      rw [List.cons_append] at h4
      simpa using h4
    simp only [htok2, hfind, hrest2, List.drop_succ_cons, List.drop_zero]
    rw [if_neg (by simp [hmode])]
    exact resolve_go_fuel s (nm'.length + 1 + (path_join (a :: as)).length)
      (path_join (a :: as)) _ _ cur (by omega) (by omega) (le_refl _)

theorem path_join_ne_nil (x : List Char) (xs : List (List Char)) (hx : x ≠ []) :
    path_join (x :: xs) ≠ [] := by
  cases xs with
  | nil => simpa [path_join] using hx
  | cons y ys => simp [path_join]

/-- The upward walk of `do_pwd` produces components that resolve from
the root back to the starting inode. -/
theorem pwd_walk_resolve (s : FS) (hC : ConsistentB s = true) :
    ∀ (fuel : Nat) (cur : Nat) (acc res : List (List Char)),
    cur < 512 → bmGetI s cur = true → (getIno s cur).mode = 1 →
    (∀ nm ∈ acc, nm ≠ [] ∧ '/' ∉ nm) →
    pwd_walk s fuel cur acc = some res →
    (∀ nm ∈ res, nm ≠ [] ∧ '/' ∉ nm) ∧
    (cur ≠ 0 → ∃ x xs, res = x :: xs ∧ x ≠ []) ∧
    (cur = 0 → res = acc) ∧
    (∀ k, resolve_loop s cur (path_join acc) = some k →
      resolve_loop s 0 (path_join res) = some k) := by
  intro fuel
  induction fuel with
  | zero =>
    intro cur acc res _ _ _ _ hw
    cases hw
  | succ fuel ih =>
    intro cur acc res hlt hbm hmode hacc hw
    simp only [pwd_walk] at hw
    by_cases hc0 : cur = 0
    · rw [if_pos hc0] at hw
      injection hw with hw
      subst hw
      refine ⟨hacc, fun h => absurd hc0 h, fun _ => rfl, fun k hk => ?_⟩
      rw [← hc0]
      exact hk
    · rw [if_neg hc0] at hw
      by_cases hdep : acc.length ≥ 64
      · rw [if_pos hdep] at hw
        cases hw
      · rw [if_neg hdep] at hw
        obtain ⟨par, nm, hfe, hplt, hpbm, hpmode, hpne, hfn, hfind2, hnm1, hnm2⟩ :=
          consistent_spec s hC cur hlt hbm hmode hc0
        simp only [hfe, hfn] at hw
        rw [if_neg hpne] at hw
        obtain ⟨N1, N2, N3, N4⟩ := ih par (nm :: acc) res hplt hpbm hpmode
          (fun m hm => by
            rcases List.mem_cons.mp hm with he | hin
            · subst he
              exact ⟨hnm1, hnm2⟩
            · exact hacc m hin) hw
        refine ⟨N1, fun _ => ?_, fun h => absurd h hc0, fun k hk => ?_⟩
        · by_cases hp0 : par = 0
          · exact ⟨nm, acc, N3 hp0, hnm1⟩
          · exact N2 hp0
        · have hstep := resolve_step s par cur nm acc hnm1 hnm2 hfind2 hmode
          exact N4 k (hstep.trans hk)

/-- C7: `pwd` inverts `cd`.  In a consistent filesystem whose current
working directory is an allocated directory inode (as established by any
sequence of successful `cd` commands from the root), the path `P`
printed by `pwd` satisfies: `cd /` followed by `cd P` makes the CWD the
same inode again. -/
theorem pwd_inverts_cd (s : FS) (P : List Char)
    (hC : ConsistentB s = true) (hcwd : s.cwd < 512)
    (hbm : bmGetI s s.cwd = true) (hmode : (getIno s s.cwd).mode = 1)
    (hP : do_pwd s = some P) :
    (do_cd (do_cd s ['/']) P).cwd = s.cwd := by
  obtain ⟨hrbm, hrmode⟩ := consistent_root s hC
  have hcd1 : do_cd s ['/'] = { s with cwd := 0 } := by
    unfold do_cd
    rw [if_neg (by simp)]
    have hg : get_path_inode s ['/'] = some 0 := rfl
    simp only [hg]
    rw [if_neg (by simp [hrmode])]
  rw [hcd1]
  unfold do_pwd at hP
  by_cases h0 : s.cwd = 0
  · rw [if_pos h0] at hP
    injection hP with hP
    subst hP
    unfold do_cd
    rw [if_neg (by simp)]
    have hg : get_path_inode { s with cwd := 0 } ['/'] = some 0 := rfl
    simp only [hg]
    have hgm : getIno { s with cwd := 0 } 0 = getIno s 0 := rfl
    rw [hgm, if_neg (by simp [hrmode])]
    exact h0.symm
  · rw [if_neg h0] at hP
    cases hwalk : pwd_walk s 65 s.cwd [] with
    | none =>
      rw [hwalk] at hP
      cases hP
    | some res =>
      rw [hwalk] at hP
      simp only [Option.map_some'] at hP
      injection hP with hP
      obtain ⟨N1, N2, _, N4⟩ := pwd_walk_resolve s hC 65 s.cwd [] res hcwd hbm hmode
        (by simp) hwalk
      obtain ⟨x, xs, hres, hx⟩ := N2 h0
      have hkey : resolve_loop s 0 (path_join res) = some s.cwd :=
        N4 s.cwd (resolve_loop_nil s s.cwd)
      have hPne : path_join res ≠ [] := by
        rw [hres]
        exact path_join_ne_nil x xs hx
      subst hP
      unfold do_cd
      rw [if_neg (by simp)]
      have hgp : get_path_inode { s with cwd := 0 } ('/' :: path_join res) = some s.cwd := by
        unfold get_path_inode
        rw [if_neg (by simp)]
        rw [if_neg (by
          intro hcon
          have := List.cons.injEq '/' (path_join res) '.' [] ▸ hcon
          simp at hcon)]
        rw [if_neg (by
          intro hcon
          have h5 : path_join res = [] := by
            injection hcon
          exact hPne h5)]
        simp only [List.headD_cons]
        rw [if_pos trivial]
        rw [resolve_loop_cwd]
        rw [resolve_loop_slash]
        exact hkey
      simp only [hgp]
      have hm2 : getIno { s with cwd := 0 } s.cwd = getIno s s.cwd := rfl
      rw [hm2, if_neg (by simp [hmode])]

theorem pwd_inverts_cd_witness :
    do_pwd fsC10pre = some ['/', 'a'] ∧
    (do_cd (do_cd fsC10pre ['/']) ['/', 'a']).cwd = fsC10pre.cwd :=
  ⟨by decide, pwd_inverts_cd fsC10pre ['/', 'a'] (by decide) (by decide) (by decide)
    (by decide) (by decide)⟩

theorem getIno_congr10 (s s' : FS) (h : s'.inodes = s.inodes) (i : Nat) :
    getIno s' i = getIno s i := by
  unfold getIno
  rw [h]

theorem bmGetI_congr10 (s s' : FS) (h : s'.inodeBM = s.inodeBM) (i : Nat) :
    bmGetI s' i = bmGetI s i := by
  unfold bmGetI
  rw [h]

theorem getIno_setIno_ne (s : FS) (d : Nat) (v : Ino) (i : Nat) (h : i ≠ d) :
    getIno (setIno s d v) i = getIno s i := by
  have h1 : (setIno s d v).inodes = s.inodes.set d v := rfl
  unfold getIno
  rw [h1]
  exact getD_set_ne' _ _ _ _ _ (fun hh => h hh.symm)

theorem getIno_mode_setIno (s : FS) (d : Nat) (v : Ino)
    (hv : v.mode = (getIno s d).mode) (i : Nat) :
    (getIno (setIno s d v) i).mode = (getIno s i).mode := by
  have h1 : (setIno s d v).inodes = s.inodes.set d v := rfl
  by_cases h : i = d
  · subst h
    unfold getIno
    rw [h1]
    by_cases hl : i < s.inodes.length
    · rw [getD_set_self' _ _ _ _ hl]
      exact hv
    · rw [List.set_eq_of_length_le (by omega)]
  · rw [getIno_setIno_ne s d v i h]

theorem bmGetI_free_inode (s : FS) (j i : Nat) :
    bmGetI (free_inode s j) i = if i = j then false else bmGetI s i := by
  have h1 : (free_inode s j).inodeBM = s.inodeBM.set j false := rfl
  unfold bmGetI
  rw [h1]
  by_cases h : i = j
  · subst h
    rw [if_pos rfl]
    by_cases hl : i < s.inodeBM.length
    · exact getD_set_self' _ _ _ _ hl
    · rw [List.set_eq_of_length_le (by omega)]
      exact List.getD_eq_default _ _ (by omega)
  · rw [if_neg h]
    exact getD_set_ne' _ _ _ _ _ (fun hh => h hh.symm)

theorem bmGetI_set_true (s : FS) (j : Nat) (hl : j < s.inodeBM.length) (i : Nat) :
    bmGetI { s with inodeBM := s.inodeBM.set j true } i =
      if i = j then true else bmGetI s i := by
  have h1 : ({ s with inodeBM := s.inodeBM.set j true } : FS).inodeBM
      = s.inodeBM.set j true := rfl
  unfold bmGetI
  rw [h1]
  by_cases h : i = j
  · subst h
    rw [if_pos rfl]
    exact getD_set_self' _ _ _ _ hl
  · rw [if_neg h]
    exact getD_set_ne' _ _ _ _ _ (fun hh => h hh.symm)

theorem alloc_inode_spec (s : FS) (q : Nat × FS) (h : alloc_inode s = some q) :
    bmGetI s q.1 = false ∧ q.1 < 512 ∧
    q.2 = { s with inodeBM := s.inodeBM.set q.1 true } := by
  unfold alloc_inode at h
  cases hf : (List.range 512).find? (fun i => !(bmGetI s i)) with
  | none =>
    rw [hf] at h
    cases h
  | some k =>
    rw [hf] at h
    injection h with h2
    subst h2
    have hm := List.find?_some hf
    have hmem := List.mem_range.mp (List.mem_of_find?_eq_some hf)
    exact ⟨by simpa using hm, hmem, rfl⟩

theorem adb_pres (s : FS) (q : Nat × FS) (h : alloc_data_block s = some q) :
    q.2.inodeBM = s.inodeBM ∧ q.2.inodes = s.inodes ∧ q.2.cwd = s.cwd := by
  unfold alloc_data_block at h
  cases hf : (List.range s.dataBM.length).find? (fun i => !(bmGetD s i)) with
  | none =>
    rw [hf] at h
    cases h
  | some k =>
    rw [hf] at h
    injection h with h2
    subst h2
    exact ⟨rfl, rfl, rfl⟩

theorem InvP_eq_core (s s' : FS) (hlen : s'.inodeBM.length = s.inodeBM.length)
    (hcwd : s'.cwd = s.cwd)
    (hbm : ∀ i, bmGetI s' i = bmGetI s i)
    (hmode : ∀ i, (getIno s' i).mode = (getIno s i).mode) :
    InvP s → InvP s' := by
  rintro ⟨h1, h2, h3, h4⟩
  refine ⟨hlen.trans h1, ?_, ?_, fun i hm => ?_⟩
  · rw [hbm, hcwd]
    exact h2
  · rw [hmode, hcwd]
    exact h3
  · rw [hbm]
    exact h4 i (by rw [← hmode]; exact hm)

theorem InvP_alloc_at (s s' : FS) (j : Nat)
    (hlen : s'.inodeBM.length = s.inodeBM.length)
    (hcwd : s'.cwd = s.cwd)
    (hbm : ∀ i, bmGetI s' i = if i = j then true else bmGetI s i)
    (hmode : ∀ i, i ≠ j → (getIno s' i).mode = (getIno s i).mode)
    (hjold : bmGetI s j = false) :
    InvP s → InvP s' := by
  rintro ⟨h1, h2, h3, h4⟩
  have hcj : s.cwd ≠ j := by
    intro he
    rw [he] at h2
    rw [h2] at hjold
    cases hjold
  refine ⟨hlen.trans h1, ?_, ?_, fun i hm => ?_⟩
  · rw [hbm, hcwd, if_neg hcj]
    exact h2
  · rw [hcwd, hmode s.cwd hcj]
    exact h3
  · by_cases hij : i = j
    · rw [hbm, if_pos hij]
    · rw [hbm, if_neg hij]
      exact h4 i (by rw [← hmode i hij]; exact hm)

theorem InvP_free_at (s s' : FS) (j : Nat)
    (hlen : s'.inodeBM.length = s.inodeBM.length)
    (hcwd : s'.cwd = s.cwd)
    (hbm : ∀ i, bmGetI s' i = if i = j then false else bmGetI s i)
    (hmode : ∀ i, (getIno s' i).mode = (getIno s i).mode)
    (hj : (getIno s j).mode ≠ 1) :
    InvP s → InvP s' := by
  rintro ⟨h1, h2, h3, h4⟩
  have hcj : s.cwd ≠ j := by
    intro he
    rw [he] at h3
    exact hj h3
  refine ⟨hlen.trans h1, ?_, ?_, fun i hm => ?_⟩
  · rw [hbm, hcwd, if_neg hcj]
    exact h2
  · rw [hcwd, hmode s.cwd]
    exact h3
  · have hij : i ≠ j := by
      intro he
      rw [hmode i, he] at hm
      exact hj hm
    rw [hbm, if_neg hij]
    exact h4 i (by rw [← hmode i]; exact hm)

theorem foldl_fdb_pres (l : List Nat) (s : FS) :
    (l.foldl free_data_block s).inodeBM = s.inodeBM ∧
    (l.foldl free_data_block s).inodes = s.inodes ∧
    (l.foldl free_data_block s).cwd = s.cwd := by
  induction l generalizing s with
  | nil => exact ⟨rfl, rfl, rfl⟩
  | cons b bs ih =>
    obtain ⟨p1, p2, p3⟩ := ih (free_data_block s b)
    exact ⟨p1, p2, p3⟩

theorem cp_to_loop_pres :
    ∀ (cs : List (List Nat)) (s : FS) (acc : List Nat),
    (cp_to_loop s cs acc).1.inodeBM = s.inodeBM ∧
    (cp_to_loop s cs acc).1.inodes = s.inodes ∧
    (cp_to_loop s cs acc).1.cwd = s.cwd := by
  intro cs
  induction cs with
  | nil => intro s acc; exact ⟨rfl, rfl, rfl⟩
  | cons c cs ih =>
    intro s acc
    simp only [cp_to_loop]
    cases ha : alloc_data_block s with
    | none => exact ⟨rfl, rfl, rfl⟩
    | some q =>
      obtain ⟨a1, a2, a3⟩ := adb_pres s q ha
      obtain ⟨p1, p2, p3⟩ := ih (setBlk q.2 q.1 (Blk.file c)) (acc ++ [q.1])
      exact ⟨p1.trans a1, p2.trans a2, p3.trans a3⟩

theorem append_loop_pres :
    ∀ (fuel : Nat) (s : FS) (db : List Nat) (idx : Int) (bt : Nat) (ob : Bool),
    (append_loop fuel s db idx bt ob).1.inodeBM = s.inodeBM ∧
    (append_loop fuel s db idx bt ob).1.inodes = s.inodes ∧
    (append_loop fuel s db idx bt ob).1.cwd = s.cwd := by
  intro fuel
  induction fuel with
  | zero => intro s db idx bt ob; exact ⟨rfl, rfl, rfl⟩
  | succ fuel ih =>
    intro s db idx bt ob
    simp only [append_loop]
    by_cases h0 : bt = 0
    · rw [if_pos h0]
      exact ⟨rfl, rfl, rfl⟩
    · rw [if_neg h0]
      by_cases h12 : idx ≥ 12
      · rw [if_pos h12]
        exact ⟨rfl, rfl, rfl⟩
      · rw [if_neg h12]
        cases ha : alloc_data_block s with
        | none => exact ⟨rfl, rfl, rfl⟩
        | some q =>
          obtain ⟨a1, a2, a3⟩ := adb_pres s q ha
          obtain ⟨p1, p2, p3⟩ := ih (setBlk q.2 q.1 (Blk.file (List.replicate 4096 0)))
            (dbSetI db idx q.1).1 (idx + 1) (bt - min bt 4096) (ob || (dbSetI db idx q.1).2)
          exact ⟨p1.trans a1, p2.trans a2, p3.trans a3⟩

theorem trunc_loop_pres :
    ∀ (is : List Nat) (s : FS) (db : List Nat),
    (trunc_loop s db is).1.inodeBM = s.inodeBM ∧
    (trunc_loop s db is).1.inodes = s.inodes ∧
    (trunc_loop s db is).1.cwd = s.cwd := by
  intro is
  induction is with
  | nil => intro s db; exact ⟨rfl, rfl, rfl⟩
  | cons i is ih =>
    intro s db
    simp only [trunc_loop]
    by_cases h : db.getD i 0 ≠ UNUSED
    · rw [if_pos h]
      exact ih (free_data_block s (db.getD i 0)) (db.set i UNUSED)
    · rw [if_neg h]
      exact ih s db

theorem ael_pres (d : Nat) (ent : DEnt) :
    ∀ (is : List Nat) (s : FS) (di : Ino), di.mode = (getIno s d).mode →
    (add_entry_loop s d di ent is).cwd = s.cwd ∧
    (add_entry_loop s d di ent is).inodeBM = s.inodeBM ∧
    ∀ i, (getIno (add_entry_loop s d di ent is) i).mode = (getIno s i).mode := by
  intro is
  induction is with
  | nil => intro s di hd; exact ⟨rfl, rfl, fun _ => rfl⟩
  | cons i is ih =>
    intro s di hd
    simp only [add_entry_loop]
    by_cases hc : di.directBlocks.getD i 0 = UNUSED
    · rw [if_pos hc]
      cases ha : alloc_data_block s with
      | none =>
        simp only [ha]
        exact ⟨trivial, trivial, fun _ => trivial⟩
      | some q =>
        simp only [ha]
        obtain ⟨a1, a2, a3⟩ := adb_pres s q ha
        have hgi : ∀ k, getIno (setBlk q.2 q.1
            (Blk.dir ((List.replicate 15 (⟨[], 0⟩ : DEnt)).set 0 ent))) k = getIno s k :=
          getIno_congr10 s _ a2
        refine ⟨a3, a1, fun k => ?_⟩
        refine (getIno_mode_setIno _ d _ ?_ k).trans (congrArg Ino.mode (hgi k))
        rw [hgi d, ← hd]
        split <;> rfl
    · rw [if_neg hc]
      cases hf : (List.range 15).find?
          (fun j => ((blkEntries (getBlk s (di.directBlocks.getD i 0))).getD j
            (⟨[], 0⟩ : DEnt)).name == []) with
      | none =>
        simp only [hf]
        exact ih s di hd
      | some j =>
        simp only [hf]
        refine ⟨rfl, rfl, fun k => ?_⟩
        refine (getIno_mode_setIno _ d _ ?_ k).trans rfl
        have hd1 : di.mode = (getIno (setBlk s (di.directBlocks.getD i 0)
            (Blk.dir ((blkEntries (getBlk s (di.directBlocks.getD i 0))).set j ent))) d).mode :=
          hd
        rw [← hd1]
        split <;> rfl

theorem aed_pres (s : FS) (d : Nat) (nm : List Char) (ino : Nat) :
    (add_entry_to_dir s d nm ino).cwd = s.cwd ∧
    (add_entry_to_dir s d nm ino).inodeBM = s.inodeBM ∧
    ∀ i, (getIno (add_entry_to_dir s d nm ino) i).mode = (getIno s i).mode :=
  ael_pres d ⟨nm.take 255, ino⟩ (List.range 12) s (getIno s d) rfl

theorem dre_pres (s : FS) (par : Nat) (nm : List Char) :
    (do_rm_entry s par nm).inodeBM = s.inodeBM ∧
    (do_rm_entry s par nm).inodes = s.inodes ∧
    (do_rm_entry s par nm).cwd = s.cwd := by
  unfold do_rm_entry
  cases hfd : List.find? (fun t => t.2.2.name == nm) (visSlots s (getIno s par)) with
  | none =>
    simp only [hfd]
    exact ⟨trivial, trivial, trivial⟩
  | some t =>
    simp only [hfd]
    exact ⟨rfl, rfl, rfl⟩

theorem append_partial_pres (s : FS) (fi : Ino) (n : Nat) (lbi : Int) :
    ( append_partial s fi n lbi).1.inodeBM = s.inodeBM ∧
    ( append_partial s fi n lbi).1.inodes = s.inodes ∧
    ( append_partial s fi n lbi).1.cwd = s.cwd := by
  unfold append_partial
  split
  · exact ⟨rfl, rfl, rfl⟩
  · exact ⟨rfl, rfl, rfl⟩

theorem InvP_cd (s : FS) (p : List Char) : InvP s → InvP (do_cd s p) := by
  intro hI
  obtain ⟨h1, h2, h3, h4⟩ := hI
  unfold do_cd
  by_cases hp : p = []
  · rw [if_pos hp]
    exact ⟨h1, h2, h3, h4⟩
  · rw [if_neg hp]
    cases hg : get_path_inode s p with
    | none =>
      simp only [hg]
      exact ⟨h1, h2, h3, h4⟩
    | some t =>
      simp only [hg]
      by_cases hm : (getIno s t).mode ≠ 1
      · rw [if_pos hm]
        exact ⟨h1, h2, h3, h4⟩
      · rw [if_neg hm]
        have hm1 : (getIno s t).mode = 1 := not_not.mp hm
        exact ⟨h1, h4 t hm1, hm1, h4⟩

theorem InvP_ln (s : FS) (t l : List Char) : InvP s → InvP (do_ln s t l) := by
  intro hI
  unfold do_ln
  cases hg : get_path_inode s t with
  | none =>
    simp only [hg]
    exact hI
  | some ti =>
    simp only [hg]
    by_cases hm : (getIno s ti).mode = 1
    · rw [if_pos hm]
      exact hI
    · rw [if_neg hm]
      cases hg2 : get_path_inode s (dirname_of l) with
      | none =>
        simp only [hg2]
        exact hI
      | some par =>
        simp only [hg2]
        by_cases hf : (find_entry_in_dir s par (basename_of l)).isSome
        · rw [if_pos hf]
          exact hI
        · rw [if_neg hf]
          obtain ⟨a1, a2, a3⟩ := aed_pres s par (basename_of l) ti
          refine InvP_eq_core s _ ?_ ?_ ?_ ?_ hI
          · exact congrArg List.length a2
          · exact a1
          · intro i
            exact bmGetI_congr10 s _ a2 i
          · intro i
            refine (getIno_mode_setIno _ ti _ ?_ i).trans (a3 i)
            exact (a3 ti).symm

theorem append_core_pres (s : FS) (ino : Nat) (fi : Ino) (n : Nat)
    (hm : fi.mode = (getIno s ino).mode) :
    (append_core s ino fi n).1.cwd = s.cwd ∧
    (append_core s ino fi n).1.inodeBM = s.inodeBM ∧
    ∀ i, (getIno (append_core s ino fi n).1 i).mode = (getIno s i).mode := by
  simp only [append_core]
  split
  · exact ⟨rfl, rfl, fun _ => rfl⟩
  · split
    all_goals
    refine ⟨((append_loop_pres _ _ _ _ _ _).2.2).trans ( append_partial_pres s fi n _).2.2,
      ((append_loop_pres _ _ _ _ _ _).1).trans ( append_partial_pres s fi n _).1,
      fun i => ?_⟩
    refine (getIno_mode_setIno _ ino _ ?_ i).trans (congrArg Ino.mode (getIno_congr10 s _
      (((append_loop_pres _ _ _ _ _ _).2.1).trans ( append_partial_pres s fi n _).2.1) i))
    exact hm.trans (congrArg Ino.mode (getIno_congr10 s _
      (((append_loop_pres _ _ _ _ _ _).2.1).trans ( append_partial_pres s fi n _).2.1) ino)).symm

theorem InvP_append (s : FS) (p : List Char) (n : Nat) :
    InvP s → InvP (do_append s p n).1 := by
  intro hI
  unfold do_append
  by_cases hn : n = 0
  · rw [if_pos hn]
    exact hI
  · rw [if_neg hn]
    cases hg : get_path_inode s p with
    | none =>
      simp only [hg]
      exact hI
    | some ino =>
      simp only [hg]
      by_cases hm : (getIno s ino).mode ≠ 0
      · rw [if_pos hm]
        exact hI
      · rw [if_neg hm]
        obtain ⟨a1, a2, a3⟩ := append_core_pres s ino (getIno s ino) n rfl
        exact InvP_eq_core s _ (congrArg List.length a2) a1
          (fun i => bmGetI_congr10 s _ a2 i) a3 hI

theorem mode_pres_rm_body (s : FS) (par child : Nat) (cn : List Char) (i : Nat) :
    (getIno (setIno (setIno (do_rm_entry s par cn) par
        { getIno (do_rm_entry s par cn) par with
          size := u32sub (getIno (do_rm_entry s par cn) par).size 260 }) child
        { getIno s child with linkCount := u32sub (getIno s child).linkCount 1 }) i).mode
      = (getIno s i).mode := by
  have h1 : ∀ k, getIno (do_rm_entry s par cn) k = getIno s k :=
    getIno_congr10 s _ (dre_pres s par cn).2.1
  have h2 : ∀ k, (getIno (setIno (do_rm_entry s par cn) par
      { getIno (do_rm_entry s par cn) par with
        size := u32sub (getIno (do_rm_entry s par cn) par).size 260 }) k).mode
      = (getIno s k).mode := by
    intro k
    refine (getIno_mode_setIno _ par _ ?_ k).trans ?_
    · rfl
    · exact congrArg Ino.mode (h1 k)
  refine (getIno_mode_setIno _ child _ ?_ i).trans (h2 i)
  exact (h2 child).symm

theorem InvP_rm (s : FS) (p : List Char) : InvP s → InvP (do_rm s p) := by
  intro hI
  unfold do_rm
  cases hg : get_path_inode s (dirname_of p) with
  | none =>
    simp only [hg]
    exact hI
  | some par =>
    simp only [hg]
    cases hf : find_entry_in_dir s par (basename_of p) with
    | none =>
      simp only [hf]
      exact hI
    | some child =>
      simp only [hf]
      by_cases hm : (getIno s child).mode = 1
      · rw [if_pos hm]
        exact hI
      · rw [if_neg hm]
        by_cases hnl : u32sub (getIno s child).linkCount 1 = 0
        · rw [if_pos hnl]
          refine InvP_free_at s _ child ?_ ?_ ?_ ?_ hm hI
          · refine (List.length_set _ _ _).trans (congrArg List.length ?_)
            exact ((foldl_fdb_pres _ _).1).trans (dre_pres s par (basename_of p)).1
          · exact ((foldl_fdb_pres _ _).2.2).trans (dre_pres s par (basename_of p)).2.2
          · intro i
            rw [bmGetI_free_inode]
            refine if_congr Iff.rfl rfl (bmGetI_congr10 s _ ?_ i)
            exact ((foldl_fdb_pres _ _).1).trans (dre_pres s par (basename_of p)).1
          · intro i
            refine (congrArg Ino.mode (getIno_congr10 _ _ (foldl_fdb_pres _ _).2.1 i)).trans ?_
            exact mode_pres_rm_body s par child (basename_of p) i
        · rw [if_neg hnl]
          refine InvP_eq_core s _ ?_ ?_ ?_ ?_ hI
          · exact congrArg List.length (dre_pres s par (basename_of p)).1
          · exact (dre_pres s par (basename_of p)).2.2
          · intro i
            exact bmGetI_congr10 s _ (dre_pres s par (basename_of p)).1 i
          · intro i
            exact mode_pres_rm_body s par child (basename_of p) i

theorem InvP_mkdir (s : FS) (p : List Char) : InvP s → InvP (do_mkdir s p) := by
  intro hI
  unfold do_mkdir
  cases hg : get_path_inode s (dirname_of p) with
  | none =>
    simp only [hg]
    exact hI
  | some par =>
    simp only [hg]
    by_cases hfe : (find_entry_in_dir s par (basename_of p)).isSome
    · rw [if_pos hfe]
      exact hI
    · rw [if_neg hfe]
      cases hai : alloc_inode s with
      | none =>
        simp only [hai]
        exact hI
      | some q =>
        simp only [hai]
        obtain ⟨hq1, hq2, hq3⟩ := alloc_inode_spec s q hai
        cases hdb : alloc_data_block q.2 with
        | none =>
          simp only [hdb]
          have hmq : (getIno s q.1).mode ≠ 1 := by
            intro hmm
            have hb := hI.2.2.2 q.1 hmm
            rw [hb] at hq1
            cases hq1
          refine InvP_free_at s _ q.1 ?_ ?_ ?_ ?_ hmq hI
          · rw [hq3]
            exact (List.length_set _ _ _).trans (List.length_set _ _ _)
          · rw [hq3]
            rfl
          · intro i
            rw [bmGetI_free_inode, hq3]
            by_cases h : i = q.1
            · rw [if_pos h, if_pos h]
            · rw [if_neg h, if_neg h]
              rw [bmGetI_set_true s q.1 (by rw [hI.1]; exact hq2) i, if_neg h]
          · intro i
            refine congrArg Ino.mode (getIno_congr10 s _ ?_ i)
            rw [hq3]
            rfl
        | some b2 =>
          simp only [hdb]
          obtain ⟨hb1, hb2, hb3⟩ := adb_pres q.2 b2 hdb
          refine InvP_alloc_at s _ q.1 ?_ ?_ ?_ ?_ hq1 hI
          · refine (congrArg List.length ((aed_pres _ par (basename_of p) q.1).2.1)).trans ?_
            refine (congrArg List.length (hb1.trans (congrArg FS.inodeBM hq3))).trans ?_
            exact List.length_set _ _ _
          · refine ((aed_pres _ par (basename_of p) q.1).1).trans (hb3.trans ?_)
            rw [hq3]
          · intro i
            refine (bmGetI_congr10 _ _ ((aed_pres _ par (basename_of p) q.1).2.1) i).trans ?_
            refine (bmGetI_congr10 _ _ (hb1.trans (congrArg FS.inodeBM hq3)) i).trans ?_
            exact bmGetI_set_true s q.1 (by rw [hI.1]; exact hq2) i
          · intro i hiq
            refine (getIno_mode_setIno _ par _ ?_ i).trans ?_
            · rfl
            · refine ((aed_pres _ par (basename_of p) q.1).2.2 i).trans ?_
              refine (congrArg Ino.mode (getIno_setIno_ne _ q.1 _ i hiq)).trans ?_
              refine congrArg Ino.mode ?_
              exact (getIno_congr10 q.2 _ hb2 i).trans (getIno_congr10 s q.2 (by rw [hq3]) i)

theorem InvP_cp_to (s : FS) (p : List Char) (data : List Nat) :
    InvP s → InvP (do_cp_to_vdisk s p data) := by
  intro hI
  unfold do_cp_to_vdisk
  by_cases hbig : data.length > 49152
  · rw [if_pos hbig]
    exact hI
  · rw [if_neg hbig]
    cases hg : get_path_inode s (dirname_of p) with
    | none =>
      simp only [hg]
      exact hI
    | some par =>
      simp only [hg]
      by_cases hfe : (find_entry_in_dir s par (basename_of p)).isSome
      · rw [if_pos hfe]
        exact hI
      · rw [if_neg hfe]
        cases hai : alloc_inode s with
        | none =>
          simp only [hai]
          exact hI
        | some q =>
          simp only [hai]
          obtain ⟨hq1, hq2, hq3⟩ := alloc_inode_spec s q hai
          have c1 : (cp_to_loop q.2 (chunkify data) []).1.inodeBM
              = ({ s with inodeBM := s.inodeBM.set q.1 true } : FS).inodeBM := by
            refine ((cp_to_loop_pres _ _ _).1).trans ?_
            rw [hq3]
          have c2 : (cp_to_loop q.2 (chunkify data) []).1.inodes
              = ({ s with inodeBM := s.inodeBM.set q.1 true } : FS).inodes := by
            refine ((cp_to_loop_pres _ _ _).2.1).trans ?_
            rw [hq3]
          have c3 : (cp_to_loop q.2 (chunkify data) []).1.cwd = s.cwd := by
            refine ((cp_to_loop_pres _ _ _).2.2).trans ?_
            rw [hq3]
          split
          · refine InvP_alloc_at s _ q.1 ?_ ?_ ?_ ?_ hq1 hI
            · refine (congrArg List.length ((aed_pres _ par (basename_of p) q.1).2.1)).trans ?_
              refine (congrArg List.length c1).trans ?_
              exact List.length_set _ _ _
            · exact ((aed_pres _ par (basename_of p) q.1).1).trans c3
            · intro i
              refine (bmGetI_congr10 _ _ ((aed_pres _ par (basename_of p) q.1).2.1) i).trans ?_
              refine (bmGetI_congr10 _ _ c1 i).trans ?_
              exact bmGetI_set_true s q.1 (by rw [hI.1]; exact hq2) i
            · intro i hiq
              refine ((aed_pres _ par (basename_of p) q.1).2.2 i).trans ?_
              refine (congrArg Ino.mode (getIno_setIno_ne _ q.1 _ i hiq)).trans ?_
              exact congrArg Ino.mode (getIno_congr10 s _ c2 i)
          · have hmq : (getIno s q.1).mode ≠ 1 := by
              intro hmm
              have hb := hI.2.2.2 q.1 hmm
              rw [hb] at hq1
              cases hq1
            refine InvP_free_at s _ q.1 ?_ ?_ ?_ ?_ hmq hI
            · refine (List.length_set _ _ _).trans ?_
              refine (congrArg List.length (((foldl_fdb_pres _ _).1).trans c1)).trans ?_
              exact List.length_set _ _ _
            · exact ((foldl_fdb_pres _ _).2.2).trans c3
            · intro i
              rw [bmGetI_free_inode]
              by_cases h : i = q.1
              · rw [if_pos h, if_pos h]
              · rw [if_neg h, if_neg h]
                refine (bmGetI_congr10 _ _ (((foldl_fdb_pres _ _).1).trans c1) i).trans ?_
                rw [bmGetI_set_true s q.1 (by rw [hI.1]; exact hq2) i, if_neg h]
            · intro i
              refine congrArg Ino.mode (getIno_congr10 s _ ?_ i)
              exact ((foldl_fdb_pres _ _).2.1).trans c2

theorem InvP_truncate (s : FS) (p : List Char) (n : Nat) :
    InvP s → InvP (do_truncate s p n) := by
  intro hI
  unfold do_truncate
  by_cases hn : n = 0
  · rw [if_pos hn]
    exact hI
  · rw [if_neg hn]
    cases hg : get_path_inode s p with
    | none =>
      simp only [hg]
      exact hI
    | some ino =>
      simp only [hg]
      by_cases hm : (getIno s ino).mode ≠ 0
      · rw [if_pos hm]
        exact hI
      · rw [if_neg hm]
        refine InvP_eq_core s _ ?_ ?_ ?_ ?_ hI
        · exact congrArg List.length (trunc_loop_pres _ _ _).1
        · exact (trunc_loop_pres _ _ _).2.2
        · intro i
          exact bmGetI_congr10 s _ (trunc_loop_pres _ _ _).1 i
        · intro i
          refine (getIno_mode_setIno _ ino _ ?_ i).trans ?_
          · refine Eq.trans ?_ (congrArg Ino.mode
              (getIno_congr10 s _ (trunc_loop_pres _ _ _).2.1 ino)).symm
            rfl
          · exact congrArg Ino.mode (getIno_congr10 s _ (trunc_loop_pres _ _ _).2.1 i)

theorem InvP_step (s : FS) (c : Cmd) (hc : Cmd.isRmdir c = false) :
    InvP s → InvP (step s c) := by
  cases c with
  | mkdirC p => exact InvP_mkdir s p
  | rmdirC p => simp [Cmd.isRmdir] at hc
  | rmC p => exact InvP_rm s p
  | lnC t l => exact InvP_ln s t l
  | cpToC p d => exact InvP_cp_to s p d
  | cpFromC p => exact id
  | appendC p n => exact InvP_append s p n
  | truncateC p n => exact InvP_truncate s p n
  | cdC p => exact InvP_cd s p
  | lsC p => exact id
  | pwdC => exact id
  | dfC => exact id

theorem InvP_runCmds (cs : List Cmd) :
    ∀ s : FS, (∀ c ∈ cs, Cmd.isRmdir c = false) → InvP s → InvP (runCmds s cs) := by
  induction cs with
  | nil => intro s _ hI; exact hI
  | cons c cs ih =>
    intro s hno hI
    exact ih (step s c) (fun d hd => hno d (List.mem_cons_of_mem c hd))
      (InvP_step s c (hno c (List.mem_cons_self c cs)) hI)

theorem InvP_mkfs (size t : Nat) : InvP (mkfs_state size t) := by
  refine ⟨(List.length_set _ _ _).trans (List.length_replicate _ _), rfl, rfl, ?_⟩
  intro i hm
  by_cases h0 : i = 0
  · subst h0
    rfl
  · exfalso
    have hz : (getIno (mkfs_state size t) i).mode = 0 := by
      simp only [getIno, mkfs_state]
      rw [getD_set_ne' _ _ _ _ _ (fun hh => h0 hh.symm)]
      by_cases hi : i < 512
      · rw [List.getD_eq_getElem?_getD, List.getElem?_replicate, if_pos hi]
        rfl
      · rw [List.getD_eq_default _ _ (by rw [List.length_replicate]; omega)]
        rfl
    rw [hz] at hm
    cases hm

/-- C10 (amended): CWD validity for rmdir-free sequences.  After any
sequence of commands that contains no `rmdir`, starting from a fresh
mkfs image, the current working directory refers to an inode whose
inode-bitmap bit is set and whose mode is directory.  (The original
claim, which included `rmdir`, is refuted: `rmdir` can free the CWD
inode.) -/
theorem cwd_valid_without_rmdir (size t : Nat) (cmds : List Cmd)
    (hno : ∀ c ∈ cmds, Cmd.isRmdir c = false) :
    bmGetI (runCmds (mkfs_state size t) cmds) (runCmds (mkfs_state size t) cmds).cwd = true ∧
    (getIno (runCmds (mkfs_state size t) cmds)
      (runCmds (mkfs_state size t) cmds).cwd).mode = 1 := by
  have h := InvP_runCmds cmds (mkfs_state size t) hno (InvP_mkfs size t)
  exact ⟨h.2.1, h.2.2.1⟩

theorem cwd_valid_without_rmdir_witness :
    (∀ c ∈ [Cmd.mkdirC ['/', 'a'], Cmd.cdC ['/', 'a']], Cmd.isRmdir c = false) ∧
    (bmGetI (runCmds (mkfs_state 65536 0) [Cmd.mkdirC ['/', 'a'], Cmd.cdC ['/', 'a']])
      (runCmds (mkfs_state 65536 0) [Cmd.mkdirC ['/', 'a'], Cmd.cdC ['/', 'a']]).cwd = true ∧
    (getIno (runCmds (mkfs_state 65536 0) [Cmd.mkdirC ['/', 'a'], Cmd.cdC ['/', 'a']])
      (runCmds (mkfs_state 65536 0) [Cmd.mkdirC ['/', 'a'], Cmd.cdC ['/', 'a']]).cwd).mode = 1) :=
  ⟨by decide, cwd_valid_without_rmdir 65536 0 [Cmd.mkdirC ['/', 'a'], Cmd.cdC ['/', 'a']]
    (by decide)⟩
